import Mathlib

/-!
Verification of the CVRP memetic genetic algorithm (decode, feasibility,
cost, local search, genetic operators, evolutionary loop) against its
natural-language specification.  All stochastic primitives consume an
explicit random source, a list of rationals: every Python call into the
global random module becomes one or more draws from the head of that list,
so a run is a pure function of its inputs and its random source.
-/

/-- The explicit random source: the stream of raw draws, each intended to
lie in the unit interval. -/
abbrev RandS := List ℚ

/-- One raw draw from the source, as Python random.random(). -/
def randNext (s : RandS) : ℚ × RandS := (s.headD 0, s.tail)

/-- An integer draw below n, as the random module's index draws
(randrange / choice / sample use this): the head u of the stream, scaled by
n and floored, clamped into the valid index range so the draw is total. -/
def randBelow (n : Nat) (s : RandS) : Nat × RandS :=
  (min (Int.toNat ⌊s.headD 0 * (n : ℚ)⌋) (n - 1), s.tail)

/-- Python random.sample(l, k) drawn one element at a time without
replacement; returns none when k exceeds the length of l, where Python
raises ValueError. -/
def pySampleGo {α : Type} [Inhabited α] [DecidableEq α] :
    Nat → List α → RandS → List α × RandS
  | 0, _, s => ([], s)
  | fuel + 1, l, s =>
    let (k, s1) := randBelow l.length s
    let x := l.getD k default
    let (rest, s2) := pySampleGo fuel (l.erase x) s1
    (x :: rest, s2)

/-- Python random.sample(l, k): the guard mirrors the ValueError raised
when the sample is larger than the population. -/
def pySample {α : Type} [Inhabited α] [DecidableEq α] (l : List α) (k : Nat)
    (s : RandS) : Option (List α) × RandS :=
  if k ≤ l.length then
    let (res, s') := pySampleGo k l s
    (some res, s')
  else (none, s)

/-- Python random.choice(l): one uniform index draw; none on an empty
list, where Python raises IndexError. -/
def pyChoice {α : Type} [Inhabited α] (l : List α) (s : RandS) :
    Option α × RandS :=
  if l.isEmpty then (none, s)
  else
    let (k, s') := randBelow l.length s
    (some (l.getD k default), s')

/-- Python random.sample(range(n), 2): the first index is uniform over n,
the second over the remaining n-1 values; none when n is below 2, where
Python raises ValueError. -/
def pySampleTwoIdx (n : Nat) (s : RandS) : Option (Nat × Nat) × RandS :=
  if n < 2 then (none, s)
  else
    let (i, s1) := randBelow n s
    let (j, s2) := randBelow (n - 1) s1
    (some (i, if j < i then j else j + 1), s2)

/-- Python random.uniform(0, x): the head of the stream scaled by x. -/
def pyUniform (x : ℚ) (s : RandS) : ℚ × RandS :=
  (s.headD 0 * x, s.tail)

/-!  ## The data model: problem instance, chromosomes, routes  -/

/-- A CVRP problem instance, as the dictionary built by the instance
reader: the demands dictionary is an association list from node to demand
(its keys include the depot, as in the DEMAND_SECTION of the files). -/
structure Instance where
  depot : Nat
  customers : List Nat
  demands : List (Nat × Nat)
  capacity : Nat

/-- Lookup in the demands dictionary, instance["demands"][c]. -/
def demandOf (inst : Instance) (c : Nat) : Nat :=
  ((inst.demands.lookup c).getD 0)

/-- The interior of a route: the nodes strictly between the two depot
endpoints, route[1:-1]. -/
def routeInterior (route : List Nat) : List Nat := (route.drop 1).dropLast

/-- The total demand of a list of nodes under an instance's demands. -/
def listLoad (inst : Instance) (l : List Nat) : Nat :=
  (l.map (demandOf inst)).sum

/-!  ## Decoder (ga.py decode)  -/

/-- The loop body of decode: the running route (which already starts with
the depot), its accumulated load, and the routes closed so far.  When the
next customer would exceed capacity the running route is closed with a
depot and a fresh route is opened holding that customer. -/
def decodeGo (inst : Instance) :
    List Nat → List Nat → Nat → List (List Nat) → List (List Nat)
  | [], route, _, routes => routes ++ [route ++ [inst.depot]]
  | c :: cs, route, load, routes =>
    let d := demandOf inst c
    if load + d > inst.capacity then
      decodeGo inst cs [inst.depot, c] d (routes ++ [route ++ [inst.depot]])
    else
      decodeGo inst cs (route ++ [c]) (load + d) routes

/-- ga.py decode: greedy first-fit splitting of a chromosome into
depot-anchored routes. -/
def decode (chromosome : List Nat) (inst : Instance) : List (List Nat) :=
  decodeGo inst chromosome [inst.depot] 0 []

/-- ga.py is_valid_chromosome: right length and the same value set as the
customers list. -/
def is_valid_chromosome (chrom : List Nat) (customers : List Nat) : Bool :=
  chrom.length = customers.length && chrom.toFinset = customers.toFinset

/-- ga.py repair_chromosome: a fresh uniformly random permutation of the
customers, random.sample(customers, len(customers)). -/
def repair_chromosome (customers : List Nat) (s : RandS) : List Nat × RandS :=
  pySampleGo customers.length customers s

/-!  ## Feasibility checker (src/feasibility.py)  -/

/-- The inner loop of is_solution_feasible over one route's interior:
grows the served set, accumulates the load, and fails (none) on a node
already served. -/
def routeScan (inst : Instance) :
    List Nat → List Nat → Nat → Option (List Nat × Nat)
  | served, [], load => some (served, load)
  | served, n :: ns, load =>
    if n ∈ served then none
    else routeScan inst (served ++ [n]) ns (load + demandOf inst n)

/-- The outer loop of is_solution_feasible over the routes, carrying the
set of served clients; at the end the served set must equal the demand
keys minus the depot. -/
def feasGo (inst : Instance) : List (List Nat) → List Nat → Bool
  | [], served =>
    decide (served.toFinset = (inst.demands.map Prod.fst).toFinset \ {inst.depot})
  | route :: rest, served =>
    if route.head? = some inst.depot ∧ route.getLast? = some inst.depot then
      match routeScan inst served (routeInterior route) 0 with
      | none => false
      | some (served', load) =>
        if load > inst.capacity then false else feasGo inst rest served'
    else false

/-- src/feasibility.py is_solution_feasible: every route starts and ends
at the depot, no client is served twice, no route exceeds capacity, and
the served clients are exactly the demand keys minus the depot. -/
def is_solution_feasible (solution : List (List Nat)) (inst : Instance) : Bool :=
  feasGo inst solution []

/-- Well-formedness of an instance, the data-model invariant: customers
are distinct, the depot is not a customer, and the demand keys are exactly
the customers plus the depot. -/
def InstWF (inst : Instance) : Prop :=
  inst.customers.Nodup ∧ inst.depot ∉ inst.customers ∧
    (inst.demands.map Prod.fst).toFinset = insert inst.depot inst.customers.toFinset

/-!  ## Cost evaluator (src/cost.py and ga.py route cost)  -/

/-- ga.py route cost helper: the sum of the distances of consecutive
node pairs along a route.  Distances are modelled as exact rationals. -/
def route_cost (dist : Nat → Nat → ℚ) : List Nat → ℚ
  | a :: b :: rest => dist a b + route_cost dist (b :: rest)
  | _ => 0

/-- src/cost.py solution_cost: the sum of the route costs. -/
def solution_cost (solution : List (List Nat)) (dist : Nat → Nat → ℚ) : ℚ :=
  (solution.map (route_cost dist)).sum

/-!  ## Local search: 2-opt (ga.py two_opt_route)  -/

/-- Reversal of the segment of l between positions i (included) and j
(excluded), the slice assignment new[i:j] = reversed(best[i:j]). -/
def segRev (l : List Nat) (i j : Nat) : List Nat :=
  l.take i ++ ((l.drop i).take (j - i)).reverse ++ l.drop j

/-- The index pairs scanned by one pass of two_opt_route over a route of
length n: i in range(1, n-2) and j in range(i+1, n-1). -/
def twoOptPairs (n : Nat) : List (Nat × Nat) :=
  (List.range' 1 (n - 3)).flatMap
    (fun i => (List.range' (i + 1) (n - 2 - i)).map (fun j => (i, j)))

/-- The body of the double loop of two_opt_route: try one segment
reversal on the current best and keep it when it strictly lowers the
cached cost, recording that an improvement happened. -/
def twoOptStep (dist : Nat → Nat → ℚ) (st : List Nat × ℚ × Bool)
    (ij : Nat × Nat) : List Nat × ℚ × Bool :=
  let nw := segRev st.1 ij.1 ij.2
  let c := route_cost dist nw
  if c < st.2.1 then (nw, c, true) else st

/-- One full improvement pass of two_opt_route: scan every index pair
once, greedily applying improving reversals. -/
def twoOptPass (dist : Nat → Nat → ℚ) (best : List Nat) (bcost : ℚ) :
    List Nat × ℚ × Bool :=
  (twoOptPairs best.length).foldl (twoOptStep dist) (best, bcost, false)

/-- The while-improved loop of two_opt_route, with explicit fuel.  The
Python loop terminates because every accepted reversal strictly lowers
the cost and only finitely many rearrangements of the route exist; the
fuel chosen in two_opt_route is proved sufficient below. -/
def twoOptGo (dist : Nat → Nat → ℚ) : Nat → List Nat → ℚ → List Nat
  | 0, best, _ => best
  | fuel + 1, best, bcost =>
    let r := twoOptPass dist best bcost
    if r.2.2 then twoOptGo dist fuel r.1 r.2.1 else best

/-- ga.py two_opt_route: routes of length at most 4 are returned
unchanged; otherwise improving segment reversals are applied until a full
pass finds none. -/
def two_opt_route (route : List Nat) (dist : Nat → Nat → ℚ) : List Nat :=
  if route.length ≤ 4 then route
  else twoOptGo dist (route.permutations.length + 1) route (route_cost dist route)

/-- ga.py local_search_solution: 2-opt on every route independently. -/
def local_search_solution (solution : List (List Nat)) (dist : Nat → Nat → ℚ) :
    List (List Nat) :=
  solution.map (fun r => two_opt_route r dist)

/-!  ## Inter-route moves (ga.py relocate_move, exchange_move)  -/

/-- ga.py relocate_move: pick two distinct routes, move one randomly
chosen customer of the first into a random position of the second when
the destination load allows it, otherwise return the solution unchanged. -/
def relocate_move (solution : List (List Nat)) (inst : Instance) (s : RandS) :
    List (List Nat) × RandS :=
  if solution.length < 2 then (solution, s)
  else
    match pySampleTwoIdx solution.length s with
    | (none, s1) => (solution, s1)
    | (some (r1, r2), s1) =>
      let route1 := routeInterior (solution.getD r1 [])
      let route2 := routeInterior (solution.getD r2 [])
      if route1.isEmpty then (solution, s1)
      else
        match pyChoice route1 s1 with
        | (none, s2) => (solution, s2)
        | (some cust, s2) =>
          let d := demandOf inst cust
          let load2 := listLoad inst route2
          if load2 + d > inst.capacity then (solution, s2)
          else
            let (pos, s3) := randBelow (route2.length + 1) s2
            let nr1 := route1.erase cust
            let nr2 := List.insertIdx pos cust route2
            ((solution.set r1 (inst.depot :: (nr1 ++ [inst.depot]))).set r2
              (inst.depot :: (nr2 ++ [inst.depot])), s3)

/-- ga.py exchange_move: pick two distinct routes and swap one randomly
chosen customer of each when both resulting loads stay within capacity,
otherwise return the solution unchanged. -/
def exchange_move (solution : List (List Nat)) (inst : Instance) (s : RandS) :
    List (List Nat) × RandS :=
  if solution.length < 2 then (solution, s)
  else
    match pySampleTwoIdx solution.length s with
    | (none, s1) => (solution, s1)
    | (some (r1, r2), s1) =>
      let route1 := routeInterior (solution.getD r1 [])
      let route2 := routeInterior (solution.getD r2 [])
      if route1.isEmpty ∨ route2.isEmpty then (solution, s1)
      else
        match pyChoice route1 s1 with
        | (none, s2) => (solution, s2)
        | (some c1, s2) =>
          match pyChoice route2 s2 with
          | (none, s3) => (solution, s3)
          | (some c2, s3) =>
            let d1 := demandOf inst c1
            let d2 := demandOf inst c2
            let load1 := listLoad inst route1
            let load2 := listLoad inst route2
            if (load1 : ℤ) - d1 + d2 > (inst.capacity : ℤ) then (solution, s3)
            else if (load2 : ℤ) - d2 + d1 > (inst.capacity : ℤ) then (solution, s3)
            else
              let i1 := route1.indexOf c1
              let i2 := route2.indexOf c2
              let nr1 := route1.set i1 c2
              let nr2 := route2.set i2 c1
              ((solution.set r1 (inst.depot :: (nr1 ++ [inst.depot]))).set r2
                (inst.depot :: (nr2 ++ [inst.depot])), s3)

/-!  ## Selection operators (Algo-GEN/selection.py)  -/

/-- The accumulator of Python max(selected, key=snd): keep the current
maximum, replacing it only on a strictly greater key, so the first of
several equal maxima wins. -/
def maxBySnd : List (List Nat × ℚ) → List Nat × ℚ → List Nat × ℚ
  | [], acc => acc
  | p :: rest, acc => maxBySnd rest (if p.2 > acc.2 then p else acc)

/-- selection.py tournament_selection with k = 3: sample three
(individual, fitness) pairs without replacement and return the fittest;
none when the population has fewer than three members, where Python's
random.sample raises ValueError. -/
def tournament_selection (population : List (List Nat)) (fitnesses : List ℚ)
    (s : RandS) : Option (List Nat) × RandS :=
  match pySample (population.zip fitnesses) 3 s with
  | (none, s') => (none, s')
  | (some [], s') => (none, s')
  | (some (p :: rest), s') => (some (maxBySnd rest p).1, s')

/-- The cumulative scan of roulette_wheel_selection: return the first
individual whose running fitness total reaches the picked value; none
when the scan falls through, where Python returns None. -/
def rouletteScan : List (List Nat × ℚ) → ℚ → ℚ → Option (List Nat)
  | [], _, _ => none
  | (ch, f) :: rest, pick, current =>
    if current + f ≥ pick then some ch else rouletteScan rest pick (current + f)

/-- selection.py roulette_wheel_selection: cumulative-fitness
proportional sampling with pick drawn by random.uniform(0, total). -/
def roulette_wheel_selection (population : List (List Nat))
    (fitnesses : List ℚ) (s : RandS) : Option (List Nat) × RandS :=
  let total := fitnesses.sum
  let (pick, s') := pyUniform total s
  (rouletteScan (population.zip fitnesses) pick 0, s')

/-- Stable insertion of a pair into a list sorted by strictly descending
second component: the model of one step of Python sorted with
reverse=True over (index, fitness) pairs. -/
def insertDescBySnd (p : Nat × ℚ) : List (Nat × ℚ) → List (Nat × ℚ)
  | [] => [p]
  | q :: rest => if p.2 > q.2 then p :: q :: rest else q :: insertDescBySnd p rest

/-- Python sorted(range(len(fitnesses)), key=fitnesses, reverse=True):
indices in stably descending fitness order, as an insertion sort. -/
def sortIdxDesc : List (Nat × ℚ) → List (Nat × ℚ)
  | [] => []
  | p :: rest => insertDescBySnd p (sortIdxDesc rest)

/-- selection.py rank_selection: linear rank weights (best gets
len(population), worst gets 1) and roulette logic over the ranks. -/
def rank_selection (population : List (List Nat)) (fitnesses : List ℚ)
    (s : RandS) : Option (List Nat) × RandS :=
  let n := population.length
  let sortedIdx := (sortIdxDesc fitnesses.enum).map Prod.fst
  let ranks := (sortedIdx.enum.foldl
    (fun acc ri => acc.set ri.2 (n - ri.1)) (List.replicate n 0) : List Nat)
  let total := (ranks.map (fun r => (r : ℚ))).sum
  let (pick, s') := pyUniform total s
  (rouletteScan (population.zip (ranks.map (fun r => (r : ℚ)))) pick 0, s')

/-- The accumulator of Python max(range(len(fitnesses)), key=fitnesses):
the index of the first maximal fitness. -/
def argmaxIdx (fits : List ℚ) : Nat :=
  (fits.enum.foldl (fun acc p => if p.2 > acc.2 then p else acc)
    (0, fits.headD 0)).1

/-- selection.py deterministic_selection: the single fittest individual;
none on an empty population or fitness list, where Python returns None. -/
def deterministic_selection (population : List (List Nat))
    (fitnesses : List ℚ) : Option (List Nat) :=
  if population.isEmpty ∨ fitnesses.isEmpty then none
  else population.getD (argmaxIdx fitnesses) []

/-- selection.py uniform_selection: random.sample(population,
num_select) - note that it returns a list of chromosomes, not a single
chromosome. -/
def uniform_selection (population : List (List Nat)) (num_select : Nat)
    (s : RandS) : Option (List (List Nat)) × RandS :=
  pySample population num_select s

/-- The cumulative scan of the remainder phase of remainder_selection:
the first index whose running remainder total reaches the drawn value. -/
def remScan : List ℚ → ℚ → ℚ → Nat → Option Nat
  | [], _, _, _ => none
  | r :: rest, rand, cum, i =>
    if rand ≤ cum + r then some i else remScan rest rand (cum + r) (i + 1)

/-- The while-loop of remainder_selection that tops the selected index
list up to N, with fuel equal to the number of missing entries.  For
draws inside the unit interval every iteration appends one index; on a
fall-through scan (impossible for such draws) the iteration appends
nothing, where Python would retry. -/
def remainderFill (nrem : List ℚ) (totalRem : ℚ) (npop : Nat) :
    Nat → List Nat → RandS → List Nat × RandS
  | 0, sel, s => (sel, s)
  | fuel + 1, sel, s =>
    if totalRem > 0 then
      let (rand, s') := pyUniform totalRem s
      match remScan nrem rand 0 0 with
      | some i => remainderFill nrem totalRem npop fuel (sel ++ [i]) s'
      | none => remainderFill nrem totalRem npop fuel sel s'
    else
      let (k, s') := randBelow npop s
      remainderFill nrem totalRem npop fuel (sel ++ [k]) s'

/-- selection.py remainder_selection: stochastic remainder sampling -
guaranteed integer-part copies, remainders resolved by weighted draws,
fallback to a uniform choice when the total fitness is zero. -/
def remainder_selection (population : List (List Nat)) (fitnesses : List ℚ)
    (s : RandS) : Option (List Nat) × RandS :=
  let npop := population.length
  let total_fit := fitnesses.sum
  if total_fit = 0 then pyChoice population s
  else
    let evals := fitnesses.map (fun f => (npop : ℚ) * (f / total_fit))
    let sel0 := evals.enum.flatMap
      (fun p => List.replicate (Int.toNat ⌊p.2⌋) p.1)
    let rems := evals.map (fun e => e - (⌊e⌋ : ℚ))
    let totalRem := rems.sum
    let (sel, s1) := remainderFill rems totalRem npop (npop - sel0.length) sel0 s
    match pyChoice sel s1 with
    | (none, s2) => (none, s2)
    | (some idx, s2) =>
      if idx < npop then (some (population.getD idx []), s2) else (none, s2)

/-!  ## Crossover operators (Algo-GEN/crossover.py)  -/

/-- The partially filled child: the chosen slice of parent 1 copied into
position, every other slot still empty. -/
def sliceTemplate (p1 : List Nat) (a b size : Nat) : List (Option Nat) :=
  (List.range size).map
    (fun k => if a ≤ k ∧ k < b then some (p1.getD k 0) else none)

/-- Fill the empty slots of a template, in order, from a fill list; none
when the fill list runs short, where Python raises IndexError. -/
def fillNones : List (Option Nat) → List Nat → Option (List Nat)
  | [], _ => some []
  | some v :: t, fs =>
    match fillNones t fs with
    | some r => some (v :: r)
    | none => none
  | none :: t, f :: fs =>
    match fillNones t fs with
    | some r => some (f :: r)
    | none => none
  | none :: _, [] => none

/-- crossover.py order_crossover for fixed cut points a < b: copy
p1[a:b], then fill the empty slots in order with the parent-2 entries not
already present in the child. -/
def orderCrossCore (p1 p2 : List Nat) (a b : Nat) : Option (List Nat) :=
  let child0 := sliceTemplate p1 a b p1.length
  let fill := p2.filter (fun x => !(child0.contains (some x)))
  fillNones child0 fill

/-- crossover.py order_crossover: draw the two cut points by
random.sample(range(size), 2) sorted ascending (none for a chromosome
shorter than 2, where Python raises ValueError), then combine. -/
def order_crossover (p1 p2 : List Nat) (s : RandS) :
    Option (List Nat) × RandS :=
  match pySampleTwoIdx p1.length s with
  | (none, s') => (none, s')
  | (some (i, j), s') => (orderCrossCore p1 p2 (min i j) (max i j), s')

/-- The while-True mapping chain of pmx_crossover: follow the
parent1-value to parent2-position chain until an empty child slot is
found, then place the original value there.  The fuel is the chromosome
length; the chain is proved below to reach an empty slot within that many
steps, where Python just loops until it finds one. -/
def pmxChain (p1 p2 : List Nat) (val : Nat) :
    Nat → List (Option Nat) → Nat → Option (List (Option Nat))
  | _, _, 0 => none
  | pos, c1, fuel + 1 =>
    let mapped := p1.getD pos 0
    let pos' := p2.indexOf mapped
    if c1.getD pos' none = none then some (c1.set pos' (some val))
    else pmxChain p1 p2 val pos' c1 fuel

/-- The mapping loop of pmx_crossover over the slice positions of
parent 2: every slice value of parent 2 not already in the child is
placed via the mapping chain. -/
def pmxMapLoop (p1 p2 : List Nat) (fuel : Nat) :
    List Nat → List (Option Nat) → Option (List (Option Nat))
  | [], c1 => some c1
  | i :: rest, c1 =>
    if c1.contains (some (p2.getD i 0)) then pmxMapLoop p1 p2 fuel rest c1
    else
      match pmxChain p1 p2 (p2.getD i 0) i c1 fuel with
      | none => none
      | some c1' => pmxMapLoop p1 p2 fuel rest c1'

/-- crossover.py pmx_crossover for fixed cut points a < b: copy p1[a:b],
run the mapping chains for the slice values of parent 2, then fill the
remaining empty slots directly from parent 2 at the same positions. -/
def pmxCrossCore (p1 p2 : List Nat) (a b : Nat) : Option (List Nat) :=
  let c1 := sliceTemplate p1 a b p1.length
  match pmxMapLoop p1 p2 p1.length (List.range' a (b - a)) c1 with
  | none => none
  | some c1' => some (c1'.zipWith (fun o pv => o.getD pv) p2)

/-- crossover.py pmx_crossover: draw the cut points (none for a
chromosome shorter than 2, where Python raises ValueError), then
combine. -/
def pmx_crossover (p1 p2 : List Nat) (s : RandS) :
    Option (List Nat) × RandS :=
  match pySampleTwoIdx p1.length s with
  | (none, s') => (none, s')
  | (some (i, j), s') => (pmxCrossCore p1 p2 (min i j) (max i j), s')

/-!  ## Mutation operators (Algo-GEN/mutation.py)  -/

/-- mutation.py swap_mutation: exchange two distinct random positions;
none for a chromosome shorter than 2, where Python's
random.sample(range(len(c)), 2) raises ValueError. -/
def swap_mutation (chrom : List Nat) (s : RandS) :
    Option (List Nat) × RandS :=
  match pySampleTwoIdx chrom.length s with
  | (none, s') => (none, s')
  | (some (i, j), s') =>
    (some ((chrom.set i (chrom.getD j 0)).set j (chrom.getD i 0)), s')

/-- Modelled from the spec: mutation_inversion is imported by the runner
scripts but missing from mutation.py, so it is modelled from the spec's
words - reverse a randomly chosen contiguous subsequence, inclusive of
both endpoints.  Two uniform position draws give the endpoints. -/
def mutation_inversion (chrom : List Nat) (s : RandS) :
    List Nat × RandS :=
  let (i, s1) := randBelow chrom.length s
  let (j, s2) := randBelow chrom.length s1
  (segRev chrom (min i j) (max i j + 1), s2)

/-!  ## Evolutionary loop (ga.py genetic_algorithm)

The loop is higher-order in the three operators, as in Python.  Operator
arguments are modelled as total functions of the population, fitnesses
and random source; elapsed wall time is not modelled.  The try/except
penalty branch of the evaluation loop guards Python dictionary lookups,
which the association-list lookup with default models totally, so the
evaluation here is the non-exceptional path. -/

/-- A selection operator as consumed by the loop: population and
fitnesses to one chromosome. -/
abbrev SelOp := List (List Nat) → List ℚ → RandS → List Nat × RandS

/-- A crossover operator as consumed by the loop. -/
abbrev CrossOp := List Nat → List Nat → RandS → List Nat × RandS

/-- A mutation operator as consumed by the loop. -/
abbrev MutOp := List Nat → RandS → List Nat × RandS

/-- cost < best_cost, where best_cost starts as float infinity,
modelled by none. -/
def costLt (c : ℚ) : Option ℚ → Bool
  | none => true
  | some b => c < b

/-- The evaluation of one chromosome inside the generation loop: repair
when invalid, decode, 2-opt every route, then one probabilistic relocate
(0.7) and one probabilistic exchange (0.4); returns the evaluated
chromosome and its cost. -/
def evalChrom (inst : Instance) (dist : Nat → Nat → ℚ) (chrom : List Nat)
    (s : RandS) : List Nat × ℚ × RandS :=
  let (chrom1, s1) :=
    if is_valid_chromosome chrom inst.customers then (chrom, s)
    else repair_chromosome inst.customers s
  let sol := local_search_solution (decode chrom1 inst) dist
  let (u1, s2) := randNext s1
  let (sol2, s3) := if u1 < 0.7 then relocate_move sol inst s2 else (sol, s2)
  let (u2, s4) := randNext s3
  let (sol3, s5) := if u2 < 0.4 then exchange_move sol2 inst s4 else (sol2, s4)
  (chrom1, solution_cost sol3 dist, s5)

/-- The evaluation loop over the population: collects costs and
fitnesses 1/(cost + 1e-9) in order and tracks the strictly-improving
incumbent best chromosome and cost. -/
def evalFold (inst : Instance) (dist : Nat → Nat → ℚ) :
    List (List Nat) → List ℚ → List ℚ → Option ℚ → Option (List Nat) →
    RandS → List ℚ × List ℚ × Option ℚ × Option (List Nat) × RandS
  | [], costs, fits, bc, bch, s => (costs, fits, bc, bch, s)
  | chrom :: rest, costs, fits, bc, bch, s =>
    let r := evalChrom inst dist chrom s
    let cost := r.2.1
    let nbc := if costLt cost bc then some cost else bc
    let nbch := if costLt cost bc then some r.1 else bch
    evalFold inst dist rest (costs ++ [cost])
      (fits ++ [1 / (cost + 1 / 1000000000)]) nbc nbch r.2.2

/-- Stable insertion by ascending cost, one step of Python
sorted(zip(population, costs), key=snd). -/
def insertByCost (p : List Nat × ℚ) :
    List (List Nat × ℚ) → List (List Nat × ℚ)
  | [] => [p]
  | q :: rest => if p.2 < q.2 then p :: q :: rest else q :: insertByCost p rest

/-- Python sorted(zip(population, costs), key=snd), as a stable
insertion sort. -/
def sortByCost : List (List Nat × ℚ) → List (List Nat × ℚ)
  | [] => []
  | p :: rest => insertByCost p (sortByCost rest)

/-- The repair guard of the loop: keep a chromosome that passes
is_valid_chromosome, otherwise replace it by a fresh random
permutation. -/
def checkedChild (customers : List Nat) (child : List Nat) (s : RandS) :
    List Nat × RandS :=
  if is_valid_chromosome child customers then (child, s)
  else repair_chromosome customers s

/-- The reproduction while-loop: select two parents, cross with
probability px else clone parent 1, mutate with probability pm, repair
when invalid, append; the fuel is the number of offspring still needed,
one appended per iteration. -/
def reproduce (sel : SelOp) (cross : CrossOp) (mu : MutOp)
    (customers : List Nat) (population : List (List Nat))
    (fitnesses : List ℚ) (px pm : ℚ) :
    Nat → List (List Nat) → RandS → List (List Nat) × RandS
  | 0, acc, s => (acc, s)
  | n + 1, acc, s =>
    let (p1, s1) := sel population fitnesses s
    let (p2, s2) := sel population fitnesses s1
    let (u1, s3) := randNext s2
    let (child0, s4) := if u1 < px then cross p1 p2 s3 else (p1, s3)
    let (u2, s5) := randNext s4
    let (child1, s6) := if u2 < pm then mu child0 s5 else (child0, s5)
    let (child2, s7) := checkedChild customers child1 s6
    reproduce sel cross mu customers population fitnesses px pm n
      (acc ++ [child2]) s7

/-- Python min(costs) - the costs list is nonempty whenever the
population is. -/
def listMin : List ℚ → ℚ
  | [] => 0
  | c :: rest => rest.foldl min c

/-- The state carried between generations: the population, the running
incumbent (none standing for the initial float infinity), the history of
recorded per-generation values (none standing for an infinite best cost
recorded on an empty population), and the random source. -/
structure GAState where
  population : List (List Nat)
  best_cost : Option ℚ
  best_chrom : Option (List Nat)
  history : List (Option ℚ)
  rand : RandS

/-- One generation of genetic_algorithm: evaluate the population, carry
the top max(1, pop_size/20) individuals by cost into the next population,
reproduce up to pop_size, and record the generation's minimum cost (the
incumbent when the costs list is empty). -/
def gaStep (inst : Instance) (dist : Nat → Nat → ℚ) (sel : SelOp)
    (cross : CrossOp) (mu : MutOp) (pop_size : Nat) (px pm : ℚ)
    (st : GAState) : GAState :=
  let ev := evalFold inst dist st.population [] [] st.best_cost st.best_chrom st.rand
  let costs := ev.1
  let fits := ev.2.1
  let elite_size := max 1 (pop_size / 20)
  let elites := ((sortByCost (st.population.zip costs)).take elite_size).map Prod.fst
  let rep := reproduce sel cross mu inst.customers st.population fits px pm
    (pop_size - elites.length) elites ev.2.2.2.2
  { population := rep.1
    best_cost := ev.2.2.1
    best_chrom := ev.2.2.2.1
    history := st.history ++
      [if costs.length > 0 then some (listMin costs) else ev.2.2.1]
    rand := rep.2 }

/-- The generation loop iterated from an initial state. -/
def gaRun (inst : Instance) (dist : Nat → Nat → ℚ) (sel : SelOp)
    (cross : CrossOp) (mu : MutOp) (pop_size : Nat) (px pm : ℚ) :
    Nat → GAState → GAState
  | 0, st => st
  | g + 1, st => gaRun inst dist sel cross mu pop_size px pm g
      (gaStep inst dist sel cross mu pop_size px pm st)

/-- The initial population: pop_size fresh random permutations of the
customers. -/
def initPop (customers : List Nat) : Nat → RandS → List (List Nat) × RandS
  | 0, s => ([], s)
  | n + 1, s =>
    let (c, s1) := repair_chromosome customers s
    let (rest, s2) := initPop customers n s1
    (c :: rest, s2)

/-- ga.py genetic_algorithm: initial random population, then the
generation loop; the returned state holds best_chrom, best_cost and
history (elapsed wall time is not modelled). -/
def genetic_algorithm (inst : Instance) (dist : Nat → Nat → ℚ) (sel : SelOp)
    (cross : CrossOp) (mu : MutOp) (pop_size generations : Nat)
    (px pm : ℚ) (s : RandS) : GAState :=
  let (pop0, s0) := initPop inst.customers pop_size s
  gaRun inst dist sel cross mu pop_size px pm generations
    { population := pop0, best_cost := none, best_chrom := none,
      history := [], rand := s0 }

/-!  ## Derived predicates and concrete inputs used by the statements  -/

/-- Order on incumbent best costs, where none is the initial float
infinity. -/
def optLe : Option ℚ → Option ℚ → Prop
  | _, none => True
  | none, some _ => False
  | some a, some b => a ≤ b

/-- Modelled from the spec: the fallback the spec prescribes for a zero
total fitness - a uniformly random choice from the population,
random.choice(population).  Stated separately from the source-derived
roulette_wheel_selection so the two can be compared. -/
def uniformFallbackSpec (population : List (List Nat)) (s : RandS) :
    Option (List Nat) × RandS :=
  pyChoice population s

/-- A concrete four-node instance: depot 0, customers 1, 2, 3 with
demands 1, 1, 2 and capacity 2. -/
def instA : Instance :=
  { depot := 0, customers := [1, 2, 3],
    demands := [(0, 0), (1, 1), (2, 1), (3, 2)], capacity := 2 }

/-- A concrete symmetric distance matrix on the nodes of instA: nodes 1
and 2 lie far from the depot but close to each other, node 3 close to
the depot. -/
def distA : Nat → Nat → ℚ := fun a b =>
  match a, b with
  | 0, 1 => 10 | 1, 0 => 10 | 0, 2 => 10 | 2, 0 => 10
  | 1, 2 => 1 | 2, 1 => 1 | 0, 3 => 1 | 3, 0 => 1
  | _, _ => 0

/-- A degenerate selection operator for closed runs: the first
chromosome. -/
def selFirst : SelOp := fun pop _ s => (pop.headD [], s)

/-- A degenerate crossover operator for closed runs: parent 1. -/
def crossKeep : CrossOp := fun p _ s => (p, s)

/-- A degenerate mutation operator for closed runs: the identity. -/
def muKeep : MutOp := fun c s => (c, s)

/-- The random source of the closed genetic_algorithm run on instA:
initial permutation [1, 3, 2]; generation 0 triggers a relocate that
merges the route of customer 2 into the route of customer 1 (cost 23);
generation 1 triggers no inter-route move, so the same chromosome
re-evaluates to its deterministic cost 42. -/
def streamA : RandS :=
  [0, 1/2, 0, 0, 7/10, 0, 0, 1/2, 9/10, 9/10, 9/10]

/-- The invariant carried through one pass of 2-opt: the running best is
a rearrangement of the pass input, the cached cost is its cost, the cost
never goes up, an unset improvement flag means nothing changed, and a set
flag means the cost strictly dropped. -/
def passInv (dist : Nat → Nat → ℚ) (b0 : List Nat) (st : List Nat × ℚ × Bool) : Prop :=
  st.1.Perm b0 ∧ st.2.1 = route_cost dist st.1 ∧
    st.2.1 ≤ route_cost dist b0 ∧
    (st.2.2 = false → st.1 = b0 ∧ st.2.1 = route_cost dist b0) ∧
    (st.2.2 = true → st.2.1 < route_cost dist b0)

/-- The termination measure of the while-improved loop: how many
rearrangements of the original route are strictly cheaper than the
current best. -/
def cheaperCount (dist : Nat → Nat → ℚ) (r0 b : List Nat) : Nat :=
  (r0.permutations.filter
    (fun p => decide (route_cost dist p < route_cost dist b))).length

/-- The structural content of a passing feasibility check: depot-anchored
routes, globally duplicate-free interiors, per-route loads within
capacity, and interiors covering exactly the demand keys minus the
depot. -/
def FeasProps (inst : Instance) (sol : List (List Nat)) : Prop :=
  (∀ r ∈ sol, r.head? = some inst.depot ∧ r.getLast? = some inst.depot) ∧
  ((sol.map routeInterior).flatten).Nodup ∧
  (∀ r ∈ sol, listLoad inst (routeInterior r) ≤ inst.capacity) ∧
  ((sol.map routeInterior).flatten).toFinset =
    (inst.demands.map Prod.fst).toFinset \ {inst.depot}

/-- The rejection condition of relocate_move under a given random
source: fewer than two routes, an empty donor route, or the capacity
check failing for the drawn customer and destination - every such case
returns the input unchanged. -/
def relocateRejected (solution : List (List Nat)) (inst : Instance)
    (s : RandS) : Bool :=
  if solution.length < 2 then true
  else
    match pySampleTwoIdx solution.length s with
    | (none, _) => true
    | (some (r1, r2), s1) =>
      let route1 := routeInterior (solution.getD r1 [])
      let route2 := routeInterior (solution.getD r2 [])
      if route1.isEmpty then true
      else
        match pyChoice route1 s1 with
        | (none, _) => true
        | (some cust, _) =>
          decide (listLoad inst route2 + demandOf inst cust > inst.capacity)

/-- The rejection condition of exchange_move under a given random
source, mirroring its two capacity checks. -/
def exchangeRejected (solution : List (List Nat)) (inst : Instance)
    (s : RandS) : Bool :=
  if solution.length < 2 then true
  else
    match pySampleTwoIdx solution.length s with
    | (none, _) => true
    | (some (r1, r2), s1) =>
      let route1 := routeInterior (solution.getD r1 [])
      let route2 := routeInterior (solution.getD r2 [])
      if route1.isEmpty ∨ route2.isEmpty then true
      else
        match pyChoice route1 s1 with
        | (none, _) => true
        | (some c1, s2) =>
          match pyChoice route2 s2 with
          | (none, _) => true
          | (some c2, _) =>
            decide ((listLoad inst route1 : ℤ) - demandOf inst c1 +
                demandOf inst c2 > (inst.capacity : ℤ) ∨
              (listLoad inst route2 : ℤ) - demandOf inst c2 +
                demandOf inst c1 > (inst.capacity : ℤ))

/-- The mapping-chain successor of pmx_crossover: the position in
parent 2 of the parent-1 value at the current position
(pos = p2.index(p1[pos])). -/
def pmxSigma (p1 p2 : List Nat) (pos : Nat) : Nat :=
  p2.indexOf (p1.getD pos 0)

/-- The inverse chain step: the position in parent 1 of the parent-2
value at the current position. -/
def pmxTau (p1 p2 : List Nat) (pos : Nat) : Nat :=
  p1.indexOf (p2.getD pos 0)

/-- A value copied into the child from the parent-1 slice positions
a..b-1. -/
def SliceVal (p1 : List Nat) (a b x : Nat) : Prop :=
  ∃ j, a ≤ j ∧ j < b ∧ p1.getD j 0 = x

/-- A slice position whose parent-2 value is absent from the copied
slice - exactly the positions for which pmx_crossover runs a mapping
chain. -/
def PmxTrig (p1 p2 : List Nat) (a b i : Nat) : Prop :=
  ¬ SliceVal p1 a b (p2.getD i 0)

/-- The chain from slice position i first leaves the slice at position
e, after k steps bounded by the slice length: the position where the
mapping chain of pmx_crossover places its value. -/
def IsExit (p1 p2 : List Nat) (a b i e : Nat) : Prop :=
  ∃ k, 1 ≤ k ∧ k ≤ b - a ∧ (pmxSigma p1 p2)^[k] i = e ∧ ¬(a ≤ e ∧ e < b) ∧
    ∀ m, 1 ≤ m → m < k →
      a ≤ (pmxSigma p1 p2)^[m] i ∧ (pmxSigma p1 p2)^[m] i < b

/-- The invariant of the mapping loop of pmx_crossover after the slice
positions before t have been processed: the child has parent-1's
length, the slice entries hold the copied parent-1 values, and the
entries outside the slice are exactly the chain exits of the processed
triggering positions, holding the corresponding parent-2 values. -/
def PmxInv (p1 p2 : List Nat) (a b t : Nat) (c1 : List (Option Nat)) : Prop :=
  c1.length = p1.length ∧
  (∀ k, a ≤ k → k < b → c1.getD k none = some (p1.getD k 0)) ∧
  (∀ k, k < p1.length → ¬(a ≤ k ∧ k < b) →
    ((c1.getD k none ≠ none) ↔
      ∃ i, a ≤ i ∧ i < t ∧ PmxTrig p1 p2 a b i ∧ IsExit p1 p2 a b i k)) ∧
  (∀ k, k < p1.length → ¬(a ≤ k ∧ k < b) → ∀ i, a ≤ i → i < t →
    PmxTrig p1 p2 a b i → IsExit p1 p2 a b i k →
    c1.getD k none = some (p2.getD i 0))

/-!  ## Theorems  -/

theorem optLe_refl (a : Option ℚ) : optLe a a := by
  cases a <;> simp [optLe]

theorem optLe_trans {a b c : Option ℚ} (h1 : optLe a b) (h2 : optLe b c) :
    optLe a c := by
  cases a <;> cases b <;> cases c <;> simp_all [optLe]
  exact le_trans h1 h2

theorem costLt_update_optLe (c : ℚ) (bc : Option ℚ) :
    optLe (if costLt c bc then some c else bc) bc := by
  cases bc with
  | none => simp [optLe, costLt]
  | some b =>
    by_cases h : c < b
    · simp [costLt, h, optLe, le_of_lt h]
    · simp [costLt, h, optLe_refl]

theorem evalFold_best_mono (inst : Instance) (dist : Nat → Nat → ℚ)
    (pop : List (List Nat)) : ∀ costs fits bc bch s,
    optLe (evalFold inst dist pop costs fits bc bch s).2.2.1 bc := by
  induction pop with
  | nil => intro costs fits bc bch s; exact optLe_refl bc
  | cons chrom rest ih =>
    intro costs fits bc bch s
    have h1 := costLt_update_optLe (evalChrom inst dist chrom s).2.1 bc
    exact optLe_trans (ih _ _ _ _ _) h1

theorem gaStep_best_mono (inst : Instance) (dist : Nat → Nat → ℚ)
    (sel : SelOp) (cross : CrossOp) (mu : MutOp) (pop_size : Nat)
    (px pm : ℚ) (st : GAState) :
    optLe (gaStep inst dist sel cross mu pop_size px pm st).best_cost
      st.best_cost :=
  evalFold_best_mono inst dist st.population [] [] st.best_cost st.best_chrom st.rand

theorem gaRun_succ_out (inst : Instance) (dist : Nat → Nat → ℚ)
    (sel : SelOp) (cross : CrossOp) (mu : MutOp) (pop_size : Nat)
    (px pm : ℚ) : ∀ (g : Nat) (st : GAState),
    gaRun inst dist sel cross mu pop_size px pm (g + 1) st =
      gaStep inst dist sel cross mu pop_size px pm
        (gaRun inst dist sel cross mu pop_size px pm g st) := by
  intro g
  induction g with
  | zero => intro st; rfl
  | succ g ih => intro st; exact ih (gaStep inst dist sel cross mu pop_size px pm st)

/-- Claim C1, corrected: the running incumbent best cost of
genetic_algorithm is non-increasing across generations, for every
instance, distance matrix, operator triple, configuration and random
source; the history entry of a generation is that generation's
population-minimum evaluated cost, which the counterexample shows can
strictly increase between consecutive generations. -/
theorem C1_corrected_best_cost_monotone (inst : Instance)
    (dist : Nat → Nat → ℚ) (sel : SelOp) (cross : CrossOp) (mu : MutOp)
    (pop_size : Nat) (px pm : ℚ) (st : GAState) (g : Nat) :
    optLe (gaRun inst dist sel cross mu pop_size px pm (g + 1) st).best_cost
      (gaRun inst dist sel cross mu pop_size px pm g st).best_cost := by
  rw [gaRun_succ_out]
  exact gaStep_best_mono inst dist sel cross mu pop_size px pm _

set_option maxRecDepth 100000 in
unseal Rat.add Rat.mul Rat.inv Rat.sub Rat.ofScientific in
/-- Claim C1, counterexample: a concrete two-generation run of
genetic_algorithm (population size 1, so the single chromosome survives
by elitism) whose recorded history strictly increases: generation 0
records cost 23 thanks to a lucky relocate move, generation 1 records
the deterministic cost 42 of the same chromosome when no inter-route
move fires, so history[1] > history[0]. -/
theorem C1_counterexample_history_increases :
    (genetic_algorithm instA distA selFirst crossKeep muKeep 1 2 (9/10) (1/4)
      streamA).history = [some 23, some 42] ∧ ¬ ((42 : ℚ) ≤ 23) := by
  constructor
  · decide
  · decide

/-- Claim C10, confirmed: genetic_algorithm is a pure function of the
instance, distance matrix, operators, configuration and random source,
so two runs with identical inputs and identical random sources return
identical best costs and identical histories. -/
theorem C10_deterministic (inst : Instance) (dist : Nat → Nat → ℚ)
    (sel : SelOp) (cross : CrossOp) (mu : MutOp)
    (pop_size generations : Nat) (px pm : ℚ) (s1 s2 : RandS)
    (h : s1 = s2) :
    (genetic_algorithm inst dist sel cross mu pop_size generations px pm
        s1).best_cost =
      (genetic_algorithm inst dist sel cross mu pop_size generations px pm
        s2).best_cost ∧
    (genetic_algorithm inst dist sel cross mu pop_size generations px pm
        s1).history =
      (genetic_algorithm inst dist sel cross mu pop_size generations px pm
        s2).history := by
  subst h; exact ⟨rfl, rfl⟩

/-- Witness for C10 at a concrete run. -/
theorem C10_witness :
    (genetic_algorithm instA distA selFirst crossKeep muKeep 1 2 (9/10) (1/4)
        streamA).best_cost =
      (genetic_algorithm instA distA selFirst crossKeep muKeep 1 2 (9/10) (1/4)
        streamA).best_cost ∧
    (genetic_algorithm instA distA selFirst crossKeep muKeep 1 2 (9/10) (1/4)
        streamA).history =
      (genetic_algorithm instA distA selFirst crossKeep muKeep 1 2 (9/10) (1/4)
        streamA).history :=
  C10_deterministic instA distA selFirst crossKeep muKeep 1 2 (9/10) (1/4)
    streamA streamA rfl

theorem routeScan_ok (inst : Instance) : ∀ (ns served : List Nat) (load : Nat),
    served.Disjoint ns → ns.Nodup →
    routeScan inst served ns load = some (served ++ ns, load + listLoad inst ns) := by
  intro ns
  induction ns with
  | nil => intro served load _ _; simp [routeScan, listLoad]
  | cons n rest ih =>
    intro served load hdisj hnd
    have hn : n ∉ served := fun h => hdisj h (List.mem_cons_self n rest)
    have hnr : n ∉ rest := (List.nodup_cons.mp hnd).1
    rw [routeScan, if_neg hn, ih (served ++ [n]) (load + demandOf inst n)
      (by intro x hx hxr
          rcases List.mem_append.mp hx with h | h
          · exact hdisj h (List.mem_cons_of_mem n hxr)
          · rw [List.mem_singleton.mp h] at hxr; exact hnr hxr)
      (List.nodup_cons.mp hnd).2]
    simp [listLoad, List.append_assoc]
    ring

theorem feasGo_true_of (inst : Instance) : ∀ (routes : List (List Nat)) (served : List Nat),
    (∀ r ∈ routes, r.head? = some inst.depot ∧ r.getLast? = some inst.depot) →
    (served ++ ((routes.map routeInterior).flatten)).Nodup →
    (∀ r ∈ routes, listLoad inst (routeInterior r) ≤ inst.capacity) →
    (served ++ ((routes.map routeInterior).flatten)).toFinset =
      (inst.demands.map Prod.fst).toFinset \ {inst.depot} →
    feasGo inst routes served = true := by
  intro routes
  induction routes with
  | nil =>
    intro served _ _ _ hset
    simp only [feasGo, List.map_nil, List.flatten_nil, List.append_nil] at *
    exact decide_eq_true hset
  | cons route rest ih =>
    intro served hanch hnd hload hset
    have hr := hanch route (List.mem_cons_self route rest)
    rw [feasGo, if_pos hr]
    have hnd' : (served ++ (routeInterior route ++ ((rest.map routeInterior).flatten))).Nodup := by
      simpa using hnd
    have hdisj : served.Disjoint (routeInterior route) := by
      intro x hx hx'
      have := (List.nodup_append.mp hnd').2.2
      exact this hx (List.mem_append.mpr (Or.inl hx'))
    have hndr : (routeInterior route).Nodup := by
      have := (List.nodup_append.mp hnd').2.1
      exact (List.nodup_append.mp this).1
    rw [routeScan_ok inst (routeInterior route) served 0 hdisj hndr]
    have hle := hload route (List.mem_cons_self route rest)
    show (if 0 + listLoad inst (routeInterior route) > inst.capacity then false
      else feasGo inst rest (served ++ routeInterior route)) = true
    rw [if_neg (by omega)]
    refine ih (served ++ routeInterior route)
      (fun r hrr => hanch r (List.mem_cons_of_mem route hrr))
      (by simpa [List.append_assoc] using hnd)
      (fun r hrr => hload r (List.mem_cons_of_mem route hrr))
      (by rw [List.append_assoc]; simpa [List.append_assoc] using hset)

theorem decodeGo_spec (inst : Instance) : ∀ (cs cur : List Nat) (routes : List (List Nat)),
    listLoad inst cur ≤ inst.capacity →
    (∀ c ∈ cs, demandOf inst c ≤ inst.capacity) →
    (∀ r ∈ routes, r.head? = some inst.depot ∧ r.getLast? = some inst.depot ∧
      listLoad inst (routeInterior r) ≤ inst.capacity) →
    (∀ r ∈ decodeGo inst cs (inst.depot :: cur) (listLoad inst cur) routes,
      r.head? = some inst.depot ∧ r.getLast? = some inst.depot ∧
        listLoad inst (routeInterior r) ≤ inst.capacity) ∧
    ((decodeGo inst cs (inst.depot :: cur) (listLoad inst cur) routes).map
        routeInterior).flatten =
      ((routes.map routeInterior).flatten) ++ cur ++ cs := by
  intro cs
  induction cs with
  | nil =>
    intro cur routes hload _ hroutes
    have hint : routeInterior (inst.depot :: (cur ++ [inst.depot])) = cur := by
      simp [routeInterior, List.dropLast_concat]
    rw [decodeGo]
    simp only [List.cons_append]
    constructor
    · intro r hr
      rcases List.mem_append.mp hr with h | h
      · exact hroutes r h
      · rw [List.mem_singleton.mp h]
        refine ⟨by simp, ?_, ?_⟩
        · rw [show inst.depot :: (cur ++ [inst.depot]) =
            (inst.depot :: cur) ++ [inst.depot] by simp]
          exact List.getLast?_concat _
        · rw [hint]; exact hload
    · simp [hint]
  | cons c cs ih =>
    intro cur routes hload hcs hroutes
    have hint : routeInterior (inst.depot :: (cur ++ [inst.depot])) = cur := by
      simp [routeInterior, List.dropLast_concat]
    rw [decodeGo]
    simp only [List.cons_append]
    by_cases hover : listLoad inst cur + demandOf inst c > inst.capacity
    · rw [if_pos hover]
      have hc : demandOf inst c ≤ inst.capacity :=
        hcs c (List.mem_cons_self c cs)
      have hload1 : listLoad inst [c] = demandOf inst c := by simp [listLoad]
      have hroutes' : ∀ r ∈ routes ++ [inst.depot :: (cur ++ [inst.depot])],
          r.head? = some inst.depot ∧ r.getLast? = some inst.depot ∧
            listLoad inst (routeInterior r) ≤ inst.capacity := by
        intro r hr
        rcases List.mem_append.mp hr with h | h
        · exact hroutes r h
        · rw [List.mem_singleton.mp h]
          refine ⟨by simp, ?_, ?_⟩
          · rw [show inst.depot :: (cur ++ [inst.depot]) =
              (inst.depot :: cur) ++ [inst.depot] by simp]
            exact List.getLast?_concat _
          · rw [hint]; exact hload
      have hmain := ih [c] (routes ++ [inst.depot :: (cur ++ [inst.depot])])
        (by rw [hload1]; exact hc)
        (fun x hx => hcs x (List.mem_cons_of_mem c hx)) hroutes'
      rw [hload1] at hmain
      refine ⟨hmain.1, ?_⟩
      rw [hmain.2]
      simp [hint, List.append_assoc]
    · rw [if_neg hover]
      have hload2 : listLoad inst (cur ++ [c]) = listLoad inst cur + demandOf inst c := by
        simp [listLoad]
      have hmain := ih (cur ++ [c]) routes
        (by rw [hload2]; omega)
        (fun x hx => hcs x (List.mem_cons_of_mem c hx)) hroutes
      rw [hload2] at hmain
      refine ⟨hmain.1, ?_⟩
      rw [hmain.2]
      simp [List.append_assoc]

/-- Claim C2, corrected: decode does produce a depot-anchored exact
partition of the customers, but its routes respect capacity only when
every single customer's demand fits within capacity; under that extra
hypothesis (violated by the counterexample) the feasibility checker
accepts every decoded valid chromosome. -/
theorem C2_corrected_decode_feasible (inst : Instance) (chrom : List Nat)
    (hwf : InstWF inst)
    (hdem : ∀ c ∈ inst.customers, demandOf inst c ≤ inst.capacity)
    (hperm : chrom.Perm inst.customers) :
    is_solution_feasible (decode chrom inst) inst = true := by
  obtain ⟨hnd, hdep, hkeys⟩ := hwf
  have hspec := decodeGo_spec inst chrom [] []
    (by simp [listLoad]) (fun c hc => hdem c (hperm.mem_iff.mp hc)) (by simp)
  rw [show listLoad inst [] = 0 by simp [listLoad]] at hspec
  rw [is_solution_feasible]
  refine feasGo_true_of inst (decode chrom inst) []
    (fun r hr => ⟨(hspec.1 r hr).1, (hspec.1 r hr).2.1⟩) ?_
    (fun r hr => (hspec.1 r hr).2.2) ?_
  · rw [List.nil_append, decode, hspec.2]
    simpa using hperm.nodup_iff.mpr hnd
  · rw [List.nil_append, decode, hspec.2]
    simp only [List.map_nil, List.flatten_nil, List.nil_append]
    rw [hkeys, List.toFinset_eq_of_perm _ _ hperm]
    ext x
    simp only [Finset.mem_sdiff, Finset.mem_insert, Finset.mem_singleton,
      List.mem_toFinset]
    constructor
    · intro hx
      exact ⟨Or.inr hx, fun he => hdep (he ▸ hx)⟩
    · rintro ⟨hx | hx, hne⟩
      · exact absurd hx hne
      · exact hx

/-- Claim C2, counterexample: an instance whose single customer has
demand 5 against capacity 3 - the data-model invariants hold and the
chromosome is a valid permutation of the customers, yet the decoded
solution fails the feasibility checker, because decode never splits a
single over-capacity customer. -/
theorem C2_counterexample_decode_infeasible :
    is_solution_feasible
      (decode [1] (Instance.mk 0 [1] [(0, 0), (1, 5)] 3))
      (Instance.mk 0 [1] [(0, 0), (1, 5)] 3) = false := by decide

/-- Witness for the corrected C2 at a concrete instance and chromosome. -/
theorem C2_corrected_witness :
    InstWF instA ∧ (∀ c ∈ instA.customers, demandOf instA c ≤ instA.capacity) ∧
      List.Perm [1, 3, 2] instA.customers ∧
      is_solution_feasible (decode [1, 3, 2] instA) instA = true :=
  ⟨⟨by decide, by decide, by decide⟩, by decide, by decide,
    C2_corrected_decode_feasible instA [1, 3, 2] ⟨by decide, by decide, by decide⟩
      (by decide) (by decide)⟩

/-- Claim C3, corrected: when the total fitness is zero (and fitnesses
are non-negative, as the loop's 1/(cost+eps) fitnesses always are),
roulette_wheel_selection neither divides by zero nor raises - the pick
uniform(0, 0) is 0 and the cumulative scan succeeds immediately - but the
value returned is deterministically the first chromosome of the
population for every random draw, not a uniformly random fallback. -/
theorem C3_corrected_zero_total_returns_first (population : List (List Nat))
    (fitnesses : List ℚ) (s : RandS)
    (hpop : population ≠ []) (hfit : fitnesses ≠ [])
    (hsum : fitnesses.sum = 0) (hnn : ∀ x ∈ fitnesses, 0 ≤ x) :
    (roulette_wheel_selection population fitnesses s).1 =
      some (population.headD []) := by
  obtain ⟨p, ptl, rfl⟩ := List.exists_cons_of_ne_nil hpop
  obtain ⟨f, ftl, rfl⟩ := List.exists_cons_of_ne_nil hfit
  have hf : 0 ≤ f := hnn f (List.mem_cons_self f ftl)
  simp only [roulette_wheel_selection, pyUniform, hsum, mul_zero]
  simp only [List.zip_cons_cons, rouletteScan, zero_add]
  rw [if_pos hf]
  rfl

unseal Rat.add Rat.mul Rat.inv Rat.sub in
/-- Claim C3, counterexample: with zero total fitness the code returns
the first chromosome for every draw (draws 1/10 and 9/10 both yield the
first individual), while the uniform fallback the spec prescribes
returns different individuals on those draws - so the code does not fall
back to a uniformly random choice. -/
theorem C3_counterexample_not_uniform_fallback :
    (roulette_wheel_selection [[1], [2]] [0, 0] [9/10]).1 = some [1] ∧
    (roulette_wheel_selection [[1], [2]] [0, 0] [1/10]).1 = some [1] ∧
    (uniformFallbackSpec [[1], [2]] [9/10]).1 = some [2] ∧
    (uniformFallbackSpec [[1], [2]] [1/10]).1 = some [1] ∧
    ([2] : List Nat) ≠ [1] := by
  refine ⟨by decide, by decide, by decide, by decide, by decide⟩

unseal Rat.add Rat.mul Rat.inv Rat.sub in
/-- Witness for the corrected C3 at a concrete degenerate input. -/
theorem C3_corrected_witness :
    ([[1], [2]] : List (List Nat)) ≠ [] ∧ ([0, 0] : List ℚ) ≠ [] ∧
      List.sum ([0, 0] : List ℚ) = 0 ∧ (∀ x ∈ ([0, 0] : List ℚ), 0 ≤ x) ∧
      (roulette_wheel_selection [[1], [2]] [0, 0] [9/10]).1 = some [1] :=
  ⟨by decide, by decide, by decide, by decide,
    C3_corrected_zero_total_returns_first [[1], [2]] [0, 0] [9/10]
      (by decide) (by decide) (by decide) (by decide)⟩

unseal Rat.mul Rat.add Rat.inv Rat.sub in
/-- Claim C4, code bug: uniform_selection returns random.sample's list
of num_select chromosomes rather than a single member chromosome - here
the whole two-element population is returned as a list - contradicting
the spec's contract (one chromosome) and the repository's own fix note
on deterministic_selection, which says selection operators must return
individuals, not lists; under the loop's selection(population,
fitnesses) calling convention the Python function even receives the
fitness list as its sample size and raises TypeError. -/
theorem C4_code_bug_uniform_returns_list :
    (uniform_selection [[1, 2], [2, 1]] 2 [0, 0]).1 =
      some [[1, 2], [2, 1]] := by decide

theorem segRev_perm (l : List Nat) (i j : Nat) (hij : i ≤ j) :
    (segRev l i j).Perm l := by
  have hmid : (l.drop i).take (j - i) ++ l.drop j = l.drop i := by
    have hdj : l.drop j = (l.drop i).drop (j - i) := by
      rw [List.drop_drop, Nat.add_sub_cancel' hij]
    rw [hdj, List.take_append_drop]
  rw [segRev, List.append_assoc]
  refine List.Perm.trans
    (List.Perm.append_left _ (List.Perm.append_right _ (List.reverse_perm _))) ?_
  rw [hmid, List.take_append_drop]

theorem twoOptPairs_lt (n : Nat) : ∀ p ∈ twoOptPairs n, p.1 ≤ p.2 := by
  intro p hp
  rw [twoOptPairs] at hp
  obtain ⟨i, hi, hj⟩ := List.mem_flatMap.mp hp
  obtain ⟨j, hjm, rfl⟩ := List.mem_map.mp hj
  have := (List.mem_range'_1.mp hjm).1
  omega

theorem twoOptStep_inv (dist : Nat → Nat → ℚ) (b0 : List Nat)
    (st : List Nat × ℚ × Bool) (ij : Nat × Nat) (hij : ij.1 ≤ ij.2)
    (h : passInv dist b0 st) : passInv dist b0 (twoOptStep dist st ij) := by
  obtain ⟨hperm, hcost, hle, hfalse, htrue⟩ := h
  rw [twoOptStep]
  by_cases hc : route_cost dist (segRev st.1 ij.1 ij.2) < st.2.1
  · rw [if_pos hc]
    refine ⟨(segRev_perm st.1 ij.1 ij.2 hij).trans hperm, rfl,
      le_of_lt (lt_of_lt_of_le hc hle), by simp, fun _ => lt_of_lt_of_le hc hle⟩
  · rw [if_neg hc]
    exact ⟨hperm, hcost, hle, hfalse, htrue⟩

theorem foldl_passInv (dist : Nat → Nat → ℚ) (b0 : List Nat) :
    ∀ (L : List (Nat × Nat)) (st : List Nat × ℚ × Bool),
    (∀ p ∈ L, p.1 ≤ p.2) → passInv dist b0 st →
    passInv dist b0 (L.foldl (twoOptStep dist) st) := by
  intro L
  induction L with
  | nil => intro st _ h; exact h
  | cons p rest ih =>
    intro st hL h
    exact ih _ (fun q hq => hL q (List.mem_cons_of_mem p hq))
      (twoOptStep_inv dist b0 st p (hL p (List.mem_cons_self p rest)) h)

theorem twoOptPass_spec (dist : Nat → Nat → ℚ) (b : List Nat) :
    passInv dist b (twoOptPass dist b (route_cost dist b)) := by
  rw [twoOptPass]
  exact foldl_passInv dist b (twoOptPairs b.length) (b, route_cost dist b, false)
    (twoOptPairs_lt b.length)
    ⟨List.Perm.refl b, rfl, le_refl _, fun _ => ⟨rfl, rfl⟩, by simp⟩

theorem twoOptGo_cost_le (dist : Nat → Nat → ℚ) :
    ∀ (fuel : Nat) (b : List Nat),
    route_cost dist (twoOptGo dist fuel b (route_cost dist b)) ≤
      route_cost dist b := by
  intro fuel
  induction fuel with
  | zero => intro b; exact le_refl _
  | succ fuel ih =>
    intro b
    rw [twoOptGo]
    obtain ⟨hperm, hcost, hle, hfalse, htrue⟩ := twoOptPass_spec dist b
    by_cases hflag : (twoOptPass dist b (route_cost dist b)).2.2
    · rw [if_pos hflag, hcost]
      exact le_trans (ih _) (le_of_lt (hcost ▸ htrue hflag))
    · rw [if_neg hflag]

theorem twoOptGo_perm (dist : Nat → Nat → ℚ) :
    ∀ (fuel : Nat) (b : List Nat),
    (twoOptGo dist fuel b (route_cost dist b)).Perm b := by
  intro fuel
  induction fuel with
  | zero => intro b; exact List.Perm.refl b
  | succ fuel ih =>
    intro b
    rw [twoOptGo]
    obtain ⟨hperm, hcost, _, _, _⟩ := twoOptPass_spec dist b
    by_cases hflag : (twoOptPass dist b (route_cost dist b)).2.2
    · rw [if_pos hflag, hcost]
      exact (ih _).trans hperm
    · rw [if_neg hflag]

theorem filter_length_strict {α : Type} (p q : α → Bool)
    (hpq : ∀ x, p x = true → q x = true) :
    ∀ (l : List α) (a : α), a ∈ l → q a = true → p a = false →
    (l.filter p).length < (l.filter q).length := by
  intro l
  induction l with
  | nil => intro a ha; exact absurd ha (List.not_mem_nil a)
  | cons x xs ih =>
    intro a ha hqa hpa
    rcases List.mem_cons.mp ha with rfl | ha'
    · rw [List.filter_cons_of_pos hqa, List.filter_cons_of_neg (by simp [hpa])]
      exact Nat.lt_succ_of_le
        ((List.monotone_filter_right xs hpq).length_le)
    · by_cases hqx : q x = true
      · rw [List.filter_cons_of_pos hqx]
        by_cases hpx : p x = true
        · rw [List.filter_cons_of_pos hpx]
          simpa using ih a ha' hqa hpa
        · rw [List.filter_cons_of_neg (by simp [Bool.not_eq_true] at hpx ⊢; exact hpx)]
          exact Nat.lt_succ_of_lt (ih a ha' hqa hpa)
      · have hpx : ¬ p x = true := fun h => hqx (hpq x h)
        rw [List.filter_cons_of_neg (by simpa using hpx),
          List.filter_cons_of_neg (by simpa using hqx)]
        exact ih a ha' hqa hpa

theorem cheaperCount_decrease (dist : Nat → Nat → ℚ) (r0 b nb : List Nat)
    (hnb : nb.Perm r0) (hlt : route_cost dist nb < route_cost dist b) :
    cheaperCount dist r0 nb < cheaperCount dist r0 b := by
  rw [cheaperCount, cheaperCount]
  refine filter_length_strict _ _ ?_ r0.permutations nb
    (List.mem_permutations.mpr hnb) (by simp [hlt]) (by simp)
  intro x hx
  simp only [decide_eq_true_eq] at hx ⊢
  exact lt_trans hx hlt

theorem twoOptGo_fix (dist : Nat → Nat → ℚ) (r0 : List Nat) :
    ∀ (fuel : Nat) (b : List Nat), b.Perm r0 →
    cheaperCount dist r0 b < fuel →
    (twoOptPass dist (twoOptGo dist fuel b (route_cost dist b))
      (route_cost dist (twoOptGo dist fuel b (route_cost dist b)))).2.2 = false := by
  intro fuel
  induction fuel with
  | zero => intro b _ h; exact absurd h (Nat.not_lt_zero _)
  | succ fuel ih =>
    intro b hb hm
    rw [twoOptGo]
    obtain ⟨hperm, hcost, _, _, htrue⟩ := twoOptPass_spec dist b
    by_cases hflag : (twoOptPass dist b (route_cost dist b)).2.2
    · rw [if_pos hflag, hcost]
      refine ih _ (hperm.trans hb) ?_
      have hdec := cheaperCount_decrease dist r0 b _ (hperm.trans hb)
        (hcost ▸ htrue hflag)
      omega
    · rw [if_neg hflag]
      simpa using hflag

theorem cheaperCount_le (dist : Nat → Nat → ℚ) (r0 b : List Nat) :
    cheaperCount dist r0 b ≤ r0.permutations.length :=
  List.length_filter_le _ _

/-- Claim C6, confirmed: for every route and every distance matrix the
2-opt local search never increases the route cost, and it is idempotent:
a second application returns its own output unchanged (so in particular
no further cost improvement is possible at the fixpoint). -/
theorem C6_two_opt_monotone_idempotent (route : List Nat)
    (dist : Nat → Nat → ℚ) :
    route_cost dist (two_opt_route route dist) ≤ route_cost dist route ∧
      two_opt_route (two_opt_route route dist) dist = two_opt_route route dist := by
  by_cases hlen : route.length ≤ 4
  · rw [two_opt_route, if_pos hlen, two_opt_route, if_pos hlen]
    exact ⟨le_refl _, rfl⟩
  · have hcost : route_cost dist (two_opt_route route dist) ≤ route_cost dist route := by
      rw [two_opt_route, if_neg hlen]
      exact twoOptGo_cost_le dist _ route
    refine ⟨hcost, ?_⟩
    have hperm : (two_opt_route route dist).Perm route := by
      rw [two_opt_route, if_neg hlen]
      exact twoOptGo_perm dist _ route
    have hlen2 : ¬ (two_opt_route route dist).length ≤ 4 := by
      rw [hperm.length_eq]; exact hlen
    have hfix : (twoOptPass dist (two_opt_route route dist)
        (route_cost dist (two_opt_route route dist))).2.2 = false := by
      rw [two_opt_route, if_neg hlen]
      exact twoOptGo_fix dist route _ route (List.Perm.refl route)
        (Nat.lt_succ_of_le (cheaperCount_le dist route route))
    rw [two_opt_route, if_neg hlen2, twoOptGo, if_neg (by rw [hfix]; simp)]

theorem randBelow_lt (n : Nat) (hn : 0 < n) (s : RandS) : (randBelow n s).1 < n := by
  rw [randBelow]
  exact lt_of_le_of_lt (min_le_right _ _) (Nat.sub_lt hn Nat.one_pos)

theorem pyChoice_mem {α : Type} [Inhabited α] (l : List α) (s : RandS)
    (x : α) (s' : RandS) (h : pyChoice l s = (some x, s')) : x ∈ l := by
  rw [pyChoice] at h
  by_cases he : l.isEmpty
  · rw [if_pos he] at h; cases h
  · rw [if_neg he] at h
    have hlen : 0 < l.length := by
      cases l with
      | nil => simp at he
      | cons a t => simp
    have hx : x = l.getD (randBelow l.length s).1 default := by
      cases h; rfl
    rw [hx, List.getD_eq_getElem l default (randBelow_lt l.length hlen s)]
    exact List.getElem_mem _

theorem pySampleTwoIdx_spec (n : Nat) (s : RandS) (i j : Nat) (s' : RandS)
    (h : pySampleTwoIdx n s = (some (i, j), s')) :
    i < n ∧ j < n ∧ i ≠ j := by
  rw [pySampleTwoIdx] at h
  by_cases hn : n < 2
  · rw [if_pos hn] at h; cases h
  · rw [if_neg hn] at h
    have hi : i = (randBelow n s).1 := by cases h; rfl
    have hj : j = (if (randBelow (n - 1) (randBelow n s).2).1 < i
        then (randBelow (n - 1) (randBelow n s).2).1
        else (randBelow (n - 1) (randBelow n s).2).1 + 1) := by cases h; rfl
    have hilt : i < n := hi ▸ randBelow_lt n (by omega) s
    have hjlt : (randBelow (n - 1) (randBelow n s).2).1 < n - 1 :=
      randBelow_lt (n - 1) (by omega) _
    by_cases hc : (randBelow (n - 1) (randBelow n s).2).1 < i
    · rw [if_pos hc] at hj
      exact ⟨hilt, by omega, by omega⟩
    · rw [if_neg hc] at hj
      exact ⟨hilt, by omega, by omega⟩

theorem listLoad_perm (inst : Instance) {l l' : List Nat} (h : l.Perm l') :
    listLoad inst l = listLoad inst l' :=
  (h.map (demandOf inst)).sum_eq

theorem routeInterior_anchor (d : Nat) (x : List Nat) :
    routeInterior (d :: (x ++ [d])) = x := by
  simp [routeInterior, List.dropLast_concat]

theorem getD_set_ne {α : Type} (L : List α) (i j : Nat) (x d : α)
    (hij : i ≠ j) : (L.set i x).getD j d = L.getD j d := by
  by_cases hj : j < L.length
  · rw [List.getD_eq_getElem _ _ (by simpa using hj), List.getD_eq_getElem _ _ hj]
    exact List.getElem_set_ne hij _
  · rw [List.getD_eq_default _ _ (by simpa using Nat.le_of_not_lt hj),
      List.getD_eq_default _ _ (Nat.le_of_not_lt hj)]

theorem flatten_set_perm : ∀ (L : List (List Nat)) (a : Nat) (x : List Nat),
    a < L.length →
    ((L.set a x).flatten ++ L.getD a []).Perm (L.flatten ++ x) := by
  intro L
  induction L with
  | nil => intro a x h; simp at h
  | cons y ys ih =>
    intro a x h
    cases a with
    | zero =>
      simp only [List.set_cons_zero, List.flatten_cons, List.getD_cons_zero]
      apply Multiset.coe_eq_coe.mp
      simp only [← Multiset.coe_add]
      simp [add_comm, add_left_comm, add_assoc]
      simpa [List.append_assoc] using
        List.Perm.append_right ys.flatten (@List.perm_append_comm _ y x)
    | succ a =>
      simp only [List.set_cons_succ, List.flatten_cons, List.getD_cons_succ]
      rw [List.append_assoc, List.append_assoc]
      exact List.Perm.append_left y (ih a x (by simpa using h))

theorem set_getD_append_perm {α : Type} (d : α) :
    ∀ (l : List α) (i : Nat) (x : α), i < l.length →
    (l.set i x ++ [l.getD i d]).Perm (l ++ [x]) := by
  intro l
  induction l with
  | nil => intro i x h; simp at h
  | cons y ys ih =>
    intro i x h
    cases i with
    | zero =>
      simp only [List.set_cons_zero, List.getD_cons_zero]
      refine (@List.perm_append_comm _ (x :: ys) [y]).trans ?_
      exact List.Perm.cons y (@List.perm_append_comm _ [x] ys)
    | succ i =>
      simp only [List.set_cons_succ, List.getD_cons_succ, List.cons_append]
      exact List.Perm.cons y (ih i x (by simpa using h))

theorem routeScan_sound (inst : Instance) : ∀ (ns served : List Nat) (load : Nat)
    (served' : List Nat) (load' : Nat),
    routeScan inst served ns load = some (served', load') →
    served' = served ++ ns ∧ load' = load + listLoad inst ns ∧
      ns.Nodup ∧ served.Disjoint ns := by
  intro ns
  induction ns with
  | nil =>
    intro served load served' load' h
    rw [routeScan] at h
    cases h
    exact ⟨by simp, by simp [listLoad], List.nodup_nil, by intro x hx hx'; simp at hx'⟩
  | cons n rest ih =>
    intro served load served' load' h
    rw [routeScan] at h
    by_cases hn : n ∈ served
    · rw [if_pos hn] at h; cases h
    · rw [if_neg hn] at h
      obtain ⟨hs, hl, hnd, hdisj⟩ := ih (served ++ [n]) (load + demandOf inst n) served' load' h
      have hnr : n ∉ rest := by
        intro hr
        exact hdisj (List.mem_append.mpr (Or.inr (List.mem_singleton.mpr rfl))) hr
      refine ⟨by rw [hs, List.append_assoc]; rfl, by rw [hl]; simp [listLoad]; ring,
        List.nodup_cons.mpr ⟨hnr, hnd⟩, ?_⟩
      intro x hx hx'
      rcases List.mem_cons.mp hx' with rfl | hx''
      · exact hn hx
      · exact hdisj (List.mem_append.mpr (Or.inl hx)) hx''

theorem feasGo_sound (inst : Instance) : ∀ (routes : List (List Nat)) (served : List Nat),
    served.Nodup → feasGo inst routes served = true →
    (∀ r ∈ routes, r.head? = some inst.depot ∧ r.getLast? = some inst.depot ∧
      listLoad inst (routeInterior r) ≤ inst.capacity) ∧
    (served ++ (routes.map routeInterior).flatten).Nodup ∧
    (served ++ (routes.map routeInterior).flatten).toFinset =
      (inst.demands.map Prod.fst).toFinset \ {inst.depot} := by
  intro routes
  induction routes with
  | nil =>
    intro served hnd h
    rw [feasGo] at h
    refine ⟨by intro r hr; simp at hr, by simpa using hnd, ?_⟩
    simpa using of_decide_eq_true h
  | cons route rest ih =>
    intro served hnd h
    rw [feasGo] at h
    by_cases hanch : route.head? = some inst.depot ∧ route.getLast? = some inst.depot
    · rw [if_pos hanch] at h
      rcases hscan : routeScan inst served (routeInterior route) 0 with _ | ⟨served', load⟩
      · rw [hscan] at h; cases h
      · rw [hscan] at h
        replace h : (if load > inst.capacity then false
            else feasGo inst rest served') = true := h
        by_cases hcap : load > inst.capacity
        · rw [if_pos hcap] at h; cases h
        · rw [if_neg hcap] at h
          obtain ⟨hs, hl, hndint, hdisj⟩ :=
            routeScan_sound inst (routeInterior route) served 0 served' load hscan
          have hnd' : served'.Nodup := by
            rw [hs]; exact List.Nodup.append hnd hndint hdisj
          obtain ⟨hrest, hndall, hset⟩ := ih served' hnd' h
          rw [hs] at hndall hset
          refine ⟨?_, ?_, ?_⟩
          · intro r hr
            rcases List.mem_cons.mp hr with rfl | hr'
            · exact ⟨hanch.1, hanch.2, by rw [hl] at hcap; omega⟩
            · exact hrest r hr'
          · simpa [List.append_assoc] using hndall
          · rw [← hset]
            simp [List.append_assoc]
    · rw [if_neg hanch] at h; cases h

theorem is_solution_feasible_iff (inst : Instance) (sol : List (List Nat)) :
    is_solution_feasible sol inst = true ↔ FeasProps inst sol := by
  constructor
  · intro h
    obtain ⟨hroutes, hnd, hset⟩ := feasGo_sound inst sol [] List.nodup_nil h
    exact ⟨fun r hr => ⟨(hroutes r hr).1, (hroutes r hr).2.1⟩,
      by simpa using hnd, fun r hr => (hroutes r hr).2.2, by simpa using hset⟩
  · intro ⟨hanch, hnd, hload, hset⟩
    exact feasGo_true_of inst sol [] hanch (by simpa using hnd) hload (by simpa using hset)

theorem getD_map_routeInterior (sol : List (List Nat)) (i : Nat) (h : i < sol.length) :
    (sol.map routeInterior).getD i [] = routeInterior (sol.getD i []) := by
  rw [List.getD_eq_getElem _ _ (by simpa using h), List.getD_eq_getElem _ _ h,
    List.getElem_map]

theorem set_two_routes_feas (inst : Instance) (sol : List (List Nat))
    (r1 r2 : Nat) (n1 n2 : List Nat)
    (hfeas : FeasProps inst sol)
    (hr1 : r1 < sol.length) (hr2 : r2 < sol.length) (hne : r1 ≠ r2)
    (hperm : (n1 ++ n2).Perm
      (routeInterior (sol.getD r1 []) ++ routeInterior (sol.getD r2 [])))
    (hl1 : listLoad inst n1 ≤ inst.capacity)
    (hl2 : listLoad inst n2 ≤ inst.capacity) :
    FeasProps inst ((sol.set r1 (inst.depot :: (n1 ++ [inst.depot]))).set r2
        (inst.depot :: (n2 ++ [inst.depot]))) ∧
    ((((sol.set r1 (inst.depot :: (n1 ++ [inst.depot]))).set r2
        (inst.depot :: (n2 ++ [inst.depot]))).map routeInterior).flatten).Perm
      ((sol.map routeInterior).flatten) := by
  obtain ⟨hanch, hnd, hload, hset⟩ := hfeas
  have hmap : ((sol.set r1 (inst.depot :: (n1 ++ [inst.depot]))).set r2
      (inst.depot :: (n2 ++ [inst.depot]))).map routeInterior =
      ((sol.map routeInterior).set r1 n1).set r2 n2 := by
    rw [List.map_set, List.map_set, routeInterior_anchor, routeInterior_anchor]
  have hlen1 : r1 < (sol.map routeInterior).length := by simpa using hr1
  have hlen2 : r2 < ((sol.map routeInterior).set r1 n1).length := by simpa using hr2
  have hp1 := flatten_set_perm (sol.map routeInterior) r1 n1 hlen1
  have hp2 := flatten_set_perm ((sol.map routeInterior).set r1 n1) r2 n2 hlen2
  have hgd2 : ((sol.map routeInterior).set r1 n1).getD r2 [] =
      routeInterior (sol.getD r2 []) := by
    rw [getD_set_ne _ _ _ _ _ hne, getD_map_routeInterior sol r2 hr2]
  have hgd1 : (sol.map routeInterior).getD r1 [] = routeInterior (sol.getD r1 []) :=
    getD_map_routeInterior sol r1 hr1
  rw [hgd2] at hp2
  rw [hgd1] at hp1
  have hflat : ((((sol.map routeInterior).set r1 n1).set r2 n2).flatten).Perm
      ((sol.map routeInterior).flatten) := by
    apply Multiset.coe_eq_coe.mp
    have e1 : ((((sol.map routeInterior).set r1 n1).set r2 n2).flatten :
        Multiset Nat) + (routeInterior (sol.getD r2 []) : Multiset Nat) =
        (((sol.map routeInterior).set r1 n1).flatten : Multiset Nat) + n2 := by
      simpa using Multiset.coe_eq_coe.mpr hp2
    have e2 : ((((sol.map routeInterior).set r1 n1).flatten : Multiset Nat)) +
        (routeInterior (sol.getD r1 []) : Multiset Nat) =
        ((sol.map routeInterior).flatten : Multiset Nat) + n1 := by
      simpa using Multiset.coe_eq_coe.mpr hp1
    have e3 : (n1 : Multiset Nat) + n2 =
        (routeInterior (sol.getD r1 []) : Multiset Nat) +
          routeInterior (sol.getD r2 []) := by
      simpa using Multiset.coe_eq_coe.mpr hperm
    have key : ((((sol.map routeInterior).set r1 n1).set r2 n2).flatten :
        Multiset Nat) + ((routeInterior (sol.getD r1 []) : Multiset Nat) +
          routeInterior (sol.getD r2 [])) =
        ((sol.map routeInterior).flatten : Multiset Nat) +
          ((routeInterior (sol.getD r1 []) : Multiset Nat) +
            routeInterior (sol.getD r2 [])) := by
      calc ((((sol.map routeInterior).set r1 n1).set r2 n2).flatten :
          Multiset Nat) + ((routeInterior (sol.getD r1 []) : Multiset Nat) +
            routeInterior (sol.getD r2 []))
          = (((((sol.map routeInterior).set r1 n1).set r2 n2).flatten :
              Multiset Nat) + (routeInterior (sol.getD r2 []) : Multiset Nat)) +
              routeInterior (sol.getD r1 []) := by
            rw [add_assoc, add_comm (routeInterior (sol.getD r1 []) : Multiset Nat)]
        _ = ((((sol.map routeInterior).set r1 n1).flatten : Multiset Nat) + n2) +
              routeInterior (sol.getD r1 []) := by rw [e1]
        _ = ((((sol.map routeInterior).set r1 n1).flatten : Multiset Nat) +
              (routeInterior (sol.getD r1 []) : Multiset Nat)) + n2 := by
            rw [add_assoc, add_comm (n2 : Multiset Nat), ← add_assoc]
        _ = (((sol.map routeInterior).flatten : Multiset Nat) + n1) + n2 := by rw [e2]
        _ = ((sol.map routeInterior).flatten : Multiset Nat) + ((n1 : Multiset Nat) + n2) := by
            rw [add_assoc]
        _ = ((sol.map routeInterior).flatten : Multiset Nat) +
              ((routeInterior (sol.getD r1 []) : Multiset Nat) +
                routeInterior (sol.getD r2 [])) := by rw [e3]
    exact add_right_cancel key
  refine ⟨⟨?_, ?_, ?_, ?_⟩, ?_⟩
  · intro r hr
    rcases List.mem_or_eq_of_mem_set hr with hr' | rfl
    · rcases List.mem_or_eq_of_mem_set hr' with hr'' | rfl
      · exact hanch r hr''
      · refine ⟨rfl, ?_⟩
        rw [show inst.depot :: (n1 ++ [inst.depot]) =
          (inst.depot :: n1) ++ [inst.depot] by simp]
        exact List.getLast?_concat _
    · refine ⟨rfl, ?_⟩
      rw [show inst.depot :: (n2 ++ [inst.depot]) =
        (inst.depot :: n2) ++ [inst.depot] by simp]
      exact List.getLast?_concat _
  · rw [hmap]
    exact hflat.nodup_iff.mpr hnd
  · intro r hr
    rcases List.mem_or_eq_of_mem_set hr with hr' | rfl
    · rcases List.mem_or_eq_of_mem_set hr' with hr'' | rfl
      · exact hload r hr''
      · rw [routeInterior_anchor]; exact hl1
    · rw [routeInterior_anchor]; exact hl2
  · rw [hmap, List.toFinset_eq_of_perm _ _ hflat]
    exact hset
  · rw [hmap]
    exact hflat

theorem relocate_move_spec (inst : Instance) (sol : List (List Nat)) (s : RandS)
    (hfeas : FeasProps inst sol) :
    FeasProps inst (relocate_move sol inst s).1 ∧
    (((relocate_move sol inst s).1.map routeInterior).flatten).Perm
      ((sol.map routeInterior).flatten) := by
  rw [relocate_move]
  split
  · exact ⟨hfeas, List.Perm.refl _⟩
  · split
    · exact ⟨hfeas, List.Perm.refl _⟩
    · next r1 r2 s1 heq =>
      dsimp only
      split
      · exact ⟨hfeas, List.Perm.refl _⟩
      · next hne1 =>
        split
        · exact ⟨hfeas, List.Perm.refl _⟩
        · next cust s2 heq2 =>
          split
          · exact ⟨hfeas, List.Perm.refl _⟩
          · next hcap =>
            obtain ⟨hr1, hr2, hneq⟩ := pySampleTwoIdx_spec sol.length s r1 r2 s1 heq
            have hcust : cust ∈ routeInterior (sol.getD r1 []) :=
              pyChoice_mem _ s1 cust s2 heq2
            have hpos : (randBelow ((routeInterior (sol.getD r2 [])).length + 1) s2).1 ≤
                (routeInterior (sol.getD r2 [])).length := by
              have := randBelow_lt ((routeInterior (sol.getD r2 [])).length + 1)
                (Nat.succ_pos _) s2
              omega
            have h2 : (routeInterior (sol.getD r1 [])).Perm
                (cust :: (routeInterior (sol.getD r1 [])).erase cust) :=
              List.perm_cons_erase hcust
            have h1 : (List.insertIdx (randBelow ((routeInterior (sol.getD r2 [])).length + 1) s2).1
                cust (routeInterior (sol.getD r2 []))).Perm
                (cust :: routeInterior (sol.getD r2 [])) :=
              List.perm_insertIdx cust _ hpos
            have hmem1 : sol.getD r1 [] ∈ sol := by
              rw [List.getD_eq_getElem _ _ hr1]; exact List.getElem_mem _
            have hperm : ((routeInterior (sol.getD r1 [])).erase cust ++
                List.insertIdx (randBelow ((routeInterior (sol.getD r2 [])).length + 1) s2).1
                  cust (routeInterior (sol.getD r2 []))).Perm
                (routeInterior (sol.getD r1 []) ++ routeInterior (sol.getD r2 [])) := by
              refine ((List.Perm.append_left _ h1).trans List.perm_middle).trans ?_
              exact (List.Perm.append_right _ h2).symm
            have hsum1 : listLoad inst (routeInterior (sol.getD r1 [])) =
                demandOf inst cust +
                  listLoad inst ((routeInterior (sol.getD r1 [])).erase cust) := by
              rw [listLoad_perm inst h2]; simp [listLoad]
            have hcapr1 := hfeas.2.2.1 _ hmem1
            have hl1 : listLoad inst ((routeInterior (sol.getD r1 [])).erase cust) ≤
                inst.capacity := by omega
            have hsum2 : listLoad inst (List.insertIdx
                ((randBelow ((routeInterior (sol.getD r2 [])).length + 1) s2).1)
                cust (routeInterior (sol.getD r2 []))) =
                demandOf inst cust + listLoad inst (routeInterior (sol.getD r2 [])) := by
              rw [listLoad_perm inst h1]; simp [listLoad]
            have hl2 : listLoad inst (List.insertIdx
                ((randBelow ((routeInterior (sol.getD r2 [])).length + 1) s2).1)
                cust (routeInterior (sol.getD r2 []))) ≤ inst.capacity := by omega
            exact set_two_routes_feas inst sol r1 r2 _ _ hfeas hr1 hr2 hneq hperm hl1 hl2

theorem perm_append_cancel_right {α : Type} (l1 l2 l3 : List α)
    (h : (l1 ++ l3).Perm (l2 ++ l3)) : l1.Perm l2 := by
  apply Multiset.coe_eq_coe.mp
  have hm := Multiset.coe_eq_coe.mpr h
  simp only [← Multiset.coe_add] at hm
  exact add_right_cancel hm

theorem perm_shuffle {α : Type} (a b : α) (l1 l2 : List α) :
    ((l1 ++ [a]) ++ (l2 ++ [b])).Perm ((l1 ++ l2) ++ ([a] ++ [b])) := by
  apply Multiset.coe_eq_coe.mp
  simp only [← Multiset.coe_add]
  simp [← Multiset.coe_add, add_comm, add_left_comm, add_assoc]

theorem exchange_move_spec (inst : Instance) (sol : List (List Nat)) (s : RandS)
    (hfeas : FeasProps inst sol) :
    FeasProps inst (exchange_move sol inst s).1 ∧
    (((exchange_move sol inst s).1.map routeInterior).flatten).Perm
      ((sol.map routeInterior).flatten) := by
  rw [exchange_move]
  split
  · exact ⟨hfeas, List.Perm.refl _⟩
  · split
    · exact ⟨hfeas, List.Perm.refl _⟩
    · next r1 r2 s1 heq =>
      dsimp only
      split
      · exact ⟨hfeas, List.Perm.refl _⟩
      · next hne1 =>
        split
        · exact ⟨hfeas, List.Perm.refl _⟩
        · next c1 s2 heq2 =>
          split
          · exact ⟨hfeas, List.Perm.refl _⟩
          · next c2 s3 heq3 =>
            split
            · exact ⟨hfeas, List.Perm.refl _⟩
            · next hchk1 =>
              split
              · exact ⟨hfeas, List.Perm.refl _⟩
              · next hchk2 =>
                obtain ⟨hr1, hr2, hneq⟩ := pySampleTwoIdx_spec sol.length s r1 r2 s1 heq
                have hc1 : c1 ∈ routeInterior (sol.getD r1 []) :=
                  pyChoice_mem _ s1 c1 s2 heq2
                have hc2 : c2 ∈ routeInterior (sol.getD r2 []) :=
                  pyChoice_mem _ s2 c2 s3 heq3
                have hi1 : List.indexOf c1 (routeInterior (sol.getD r1 [])) <
                    (routeInterior (sol.getD r1 [])).length :=
                  List.indexOf_lt_length.mpr hc1
                have hi2 : List.indexOf c2 (routeInterior (sol.getD r2 [])) <
                    (routeInterior (sol.getD r2 [])).length :=
                  List.indexOf_lt_length.mpr hc2
                have hgd1 : (routeInterior (sol.getD r1 [])).getD
                    (List.indexOf c1 (routeInterior (sol.getD r1 []))) 0 = c1 := by
                  rw [List.getD_eq_getElem _ _ hi1]; exact List.getElem_indexOf hi1
                have hgd2 : (routeInterior (sol.getD r2 [])).getD
                    (List.indexOf c2 (routeInterior (sol.getD r2 []))) 0 = c2 := by
                  rw [List.getD_eq_getElem _ _ hi2]; exact List.getElem_indexOf hi2
                have p1 : ((routeInterior (sol.getD r1 [])).set
                    (List.indexOf c1 (routeInterior (sol.getD r1 []))) c2 ++ [c1]).Perm
                    (routeInterior (sol.getD r1 []) ++ [c2]) := by
                  have := set_getD_append_perm 0 (routeInterior (sol.getD r1 []))
                    (List.indexOf c1 (routeInterior (sol.getD r1 []))) c2 hi1
                  rwa [hgd1] at this
                have p2 : ((routeInterior (sol.getD r2 [])).set
                    (List.indexOf c2 (routeInterior (sol.getD r2 []))) c1 ++ [c2]).Perm
                    (routeInterior (sol.getD r2 []) ++ [c1]) := by
                  have := set_getD_append_perm 0 (routeInterior (sol.getD r2 []))
                    (List.indexOf c2 (routeInterior (sol.getD r2 []))) c1 hi2
                  rwa [hgd2] at this
                have hbig := p1.append p2
                have hperm : ((routeInterior (sol.getD r1 [])).set
                    (List.indexOf c1 (routeInterior (sol.getD r1 []))) c2 ++
                    (routeInterior (sol.getD r2 [])).set
                    (List.indexOf c2 (routeInterior (sol.getD r2 []))) c1).Perm
                    (routeInterior (sol.getD r1 []) ++ routeInterior (sol.getD r2 [])) := by
                  refine perm_append_cancel_right _ _ ([c1] ++ [c2]) ?_
                  refine ((perm_shuffle c1 c2 _ _).symm.trans hbig).trans ?_
                  refine (perm_shuffle c2 c1 _ _).trans ?_
                  exact List.Perm.append_left _ (List.Perm.swap c1 c2 [])
                have happ : ∀ a b : List Nat,
                    listLoad inst (a ++ b) = listLoad inst a + listLoad inst b := by
                  intro a b; simp [listLoad]
                have hsing : ∀ x : Nat, listLoad inst [x] = demandOf inst x := by
                  intro x; simp [listLoad]
                have e1 := listLoad_perm inst p1
                have e2 := listLoad_perm inst p2
                rw [happ, happ, hsing, hsing] at e1 e2
                simp only [not_lt] at hchk1 hchk2
                have hl1 : listLoad inst ((routeInterior (sol.getD r1 [])).set
                    (List.indexOf c1 (routeInterior (sol.getD r1 []))) c2) ≤
                    inst.capacity := by omega
                have hl2 : listLoad inst ((routeInterior (sol.getD r2 [])).set
                    (List.indexOf c2 (routeInterior (sol.getD r2 []))) c1) ≤
                    inst.capacity := by omega
                exact set_two_routes_feas inst sol r1 r2 _ _ hfeas hr1 hr2 hneq hperm hl1 hl2

theorem relocate_rejected_noop (inst : Instance) (sol : List (List Nat))
    (s : RandS) (h : relocateRejected sol inst s = true) :
    (relocate_move sol inst s).1 = sol := by
  rw [relocate_move]
  split
  · rfl
  · next hlen =>
    split
    · rfl
    · next r1 r2 s1 heq =>
      dsimp only
      split
      · rfl
      · next hne1 =>
        split
        · rfl
        · next cust s2 heq2 =>
          split
          · rfl
          · next hcap =>
            rw [relocateRejected, if_neg hlen, heq] at h
            replace h : (if (routeInterior (sol.getD r1 [])).isEmpty = true then true
              else match pyChoice (routeInterior (sol.getD r1 [])) s1 with
                | (none, _) => true
                | (some cust, _) =>
                  decide (listLoad inst (routeInterior (sol.getD r2 [])) +
                    demandOf inst cust > inst.capacity)) = true := h
            rw [if_neg hne1, heq2] at h
            replace h : decide (listLoad inst (routeInterior (sol.getD r2 [])) +
              demandOf inst cust > inst.capacity) = true := h
            exact absurd (of_decide_eq_true h) hcap

theorem exchange_rejected_noop (inst : Instance) (sol : List (List Nat))
    (s : RandS) (h : exchangeRejected sol inst s = true) :
    (exchange_move sol inst s).1 = sol := by
  rw [exchange_move]
  split
  · rfl
  · next hlen =>
    split
    · rfl
    · next r1 r2 s1 heq =>
      dsimp only
      split
      · rfl
      · next hne1 =>
        split
        · rfl
        · next c1 s2 heq2 =>
          split
          · rfl
          · next c2 s3 heq3 =>
            split
            · rfl
            · next hchk1 =>
              split
              · rfl
              · next hchk2 =>
                rw [exchangeRejected, if_neg hlen, heq] at h
                replace h : (if (routeInterior (sol.getD r1 [])).isEmpty = true ∨
                    (routeInterior (sol.getD r2 [])).isEmpty = true then true
                  else match pyChoice (routeInterior (sol.getD r1 [])) s1 with
                    | (none, _) => true
                    | (some c1, s2) =>
                      match pyChoice (routeInterior (sol.getD r2 [])) s2 with
                      | (none, _) => true
                      | (some c2, _) =>
                        decide ((listLoad inst (routeInterior (sol.getD r1 [])) : ℤ) -
                            demandOf inst c1 + demandOf inst c2 > (inst.capacity : ℤ) ∨
                          (listLoad inst (routeInterior (sol.getD r2 [])) : ℤ) -
                            demandOf inst c2 + demandOf inst c1 > (inst.capacity : ℤ))) =
                    true := h
                rw [if_neg hne1, heq2] at h
                replace h : (match pyChoice (routeInterior (sol.getD r2 [])) s2 with
                  | (none, _) => true
                  | (some c2, _) =>
                    decide ((listLoad inst (routeInterior (sol.getD r1 [])) : ℤ) -
                        demandOf inst c1 + demandOf inst c2 > (inst.capacity : ℤ) ∨
                      (listLoad inst (routeInterior (sol.getD r2 [])) : ℤ) -
                        demandOf inst c2 + demandOf inst c1 > (inst.capacity : ℤ))) = true := h
                rw [heq3] at h
                replace h : decide ((listLoad inst (routeInterior (sol.getD r1 [])) : ℤ) -
                    demandOf inst c1 + demandOf inst c2 > (inst.capacity : ℤ) ∨
                  (listLoad inst (routeInterior (sol.getD r2 [])) : ℤ) -
                    demandOf inst c2 + demandOf inst c1 > (inst.capacity : ℤ)) = true := h
                rcases of_decide_eq_true h with hbad | hbad
                · exact absurd hbad hchk1
                · exact absurd hbad hchk2

/-- Claim C5, confirmed: for every feasible solution, instance and
random source, relocate_move and exchange_move return solutions the
feasibility checker still accepts and whose multiset of visited
customers is unchanged, and whenever the rejection condition (including
a failing capacity check) holds the input solution is returned
unchanged - a silent no-op, not a retry. -/
theorem C5_moves_preserve_feasibility (inst : Instance) (sol : List (List Nat))
    (s : RandS) (hfeas : is_solution_feasible sol inst = true) :
    (is_solution_feasible (relocate_move sol inst s).1 inst = true ∧
      (((relocate_move sol inst s).1.map routeInterior).flatten).Perm
        ((sol.map routeInterior).flatten)) ∧
    (is_solution_feasible (exchange_move sol inst s).1 inst = true ∧
      (((exchange_move sol inst s).1.map routeInterior).flatten).Perm
        ((sol.map routeInterior).flatten)) ∧
    (relocateRejected sol inst s = true → (relocate_move sol inst s).1 = sol) ∧
    (exchangeRejected sol inst s = true → (exchange_move sol inst s).1 = sol) := by
  have hp := (is_solution_feasible_iff inst sol).mp hfeas
  obtain ⟨hf1, hperm1⟩ := relocate_move_spec inst sol s hp
  obtain ⟨hf2, hperm2⟩ := exchange_move_spec inst sol s hp
  exact ⟨⟨(is_solution_feasible_iff inst _).mpr hf1, hperm1⟩,
    ⟨(is_solution_feasible_iff inst _).mpr hf2, hperm2⟩,
    relocate_rejected_noop inst sol s, exchange_rejected_noop inst sol s⟩

unseal Rat.add Rat.mul Rat.inv Rat.sub in
/-- Witness for C5 at a concrete feasible three-route solution; the
random source makes relocate move customer 2 into the route of
customer 1. -/
theorem C5_witness :
    is_solution_feasible [[0, 1, 0], [0, 3, 0], [0, 2, 0]] instA = true ∧
    (is_solution_feasible
        (relocate_move [[0, 1, 0], [0, 3, 0], [0, 2, 0]] instA [0, 0, 0, 0]).1
        instA = true ∧
      (((relocate_move [[0, 1, 0], [0, 3, 0], [0, 2, 0]] instA
          [0, 0, 0, 0]).1.map routeInterior).flatten).Perm
        (([[0, 1, 0], [0, 3, 0], [0, 2, 0]].map routeInterior).flatten)) ∧
    (is_solution_feasible
        (exchange_move [[0, 1, 0], [0, 3, 0], [0, 2, 0]] instA [0, 0, 0, 0]).1
        instA = true ∧
      (((exchange_move [[0, 1, 0], [0, 3, 0], [0, 2, 0]] instA
          [0, 0, 0, 0]).1.map routeInterior).flatten).Perm
        (([[0, 1, 0], [0, 3, 0], [0, 2, 0]].map routeInterior).flatten)) ∧
    (relocateRejected [[0, 1, 0], [0, 3, 0], [0, 2, 0]] instA [0, 0, 0, 0] = true →
      (relocate_move [[0, 1, 0], [0, 3, 0], [0, 2, 0]] instA [0, 0, 0, 0]).1 =
        [[0, 1, 0], [0, 3, 0], [0, 2, 0]]) ∧
    (exchangeRejected [[0, 1, 0], [0, 3, 0], [0, 2, 0]] instA [0, 0, 0, 0] = true →
      (exchange_move [[0, 1, 0], [0, 3, 0], [0, 2, 0]] instA [0, 0, 0, 0]).1 =
        [[0, 1, 0], [0, 3, 0], [0, 2, 0]]) :=
  ⟨by decide, C5_moves_preserve_feasibility instA
    [[0, 1, 0], [0, 3, 0], [0, 2, 0]] [0, 0, 0, 0] (by decide)⟩

theorem swap_core_perm (chrom : List Nat) (i j : Nat) (hi : i < chrom.length)
    (hj : j < chrom.length) (hij : i ≠ j) :
    ((chrom.set i (chrom.getD j 0)).set j (chrom.getD i 0)).Perm chrom := by
  have hj' : j < (chrom.set i (chrom.getD j 0)).length := by simpa using hj
  have B := set_getD_append_perm 0 (chrom.set i (chrom.getD j 0)) j
    (chrom.getD i 0) hj'
  rw [getD_set_ne _ _ _ _ _ hij] at B
  have A := set_getD_append_perm 0 chrom i (chrom.getD j 0) hi
  exact perm_append_cancel_right _ _ _ (B.trans A)

/-- Claim C8, corrected: on chromosomes of length at least 2 (the
counterexample shows length 1 raises), swap_mutation returns a
permutation of the same customer set, and the spec-modelled
mutation_inversion (reversal of a random contiguous subsequence,
inclusive of both endpoints) always returns a permutation of the same
customer set. -/
theorem C8_corrected_mutation_closure (chrom : List Nat) (s : RandS)
    (hlen : 2 ≤ chrom.length) :
    (∃ c, (swap_mutation chrom s).1 = some c ∧ c.Perm chrom) ∧
    ((mutation_inversion chrom s).1).Perm chrom := by
  constructor
  · rw [swap_mutation]
    split
    · next heq =>
      rw [pySampleTwoIdx, if_neg (by omega)] at heq
      simp at heq
    · next i j s' heq =>
      obtain ⟨hi, hj, hij⟩ := pySampleTwoIdx_spec _ _ _ _ _ heq
      exact ⟨_, rfl, swap_core_perm chrom i j hi hj hij⟩
  · rw [mutation_inversion]
    exact segRev_perm chrom _ _ (by omega)

/-- Claim C8, counterexample: on a single-customer chromosome
swap_mutation fails (none models Python's ValueError from
random.sample(range(1), 2)), so the claim's for-all-valid-permutations,
without-raising reading is false. -/
theorem C8_counterexample_singleton_raises :
    (swap_mutation [7] []).1 = none := by decide

unseal Rat.add Rat.mul Rat.inv Rat.sub in
/-- Witness for the corrected C8 at a concrete three-customer
chromosome. -/
theorem C8_corrected_witness :
    2 ≤ ([1, 2, 3] : List Nat).length ∧
    ((∃ c, (swap_mutation [1, 2, 3] [0, 0]).1 = some c ∧ c.Perm [1, 2, 3]) ∧
      ((mutation_inversion [1, 2, 3] [0, 0]).1).Perm [1, 2, 3]) :=
  ⟨by decide, C8_corrected_mutation_closure [1, 2, 3] [0, 0] (by decide)⟩

theorem pySampleGo_perm {α : Type} [Inhabited α] [DecidableEq α] :
    ∀ (fuel : Nat) (l : List α) (s : RandS), fuel = l.length →
    (pySampleGo fuel l s).1.Perm l := by
  intro fuel
  induction fuel with
  | zero =>
    intro l s h
    cases l with
    | nil => exact List.Perm.refl _
    | cons a t => simp at h
  | succ fuel ih =>
    intro l s h
    have hlen : 0 < l.length := by omega
    have hk : (randBelow l.length s).1 < l.length := randBelow_lt _ hlen s
    have hx : l.getD (randBelow l.length s).1 default ∈ l := by
      rw [List.getD_eq_getElem _ _ hk]; exact List.getElem_mem _
    have hrec := ih (l.erase (l.getD (randBelow l.length s).1 default))
      (randBelow l.length s).2 (by rw [List.length_erase_of_mem hx]; omega)
    rw [pySampleGo]
    exact (List.Perm.cons _ hrec).trans (List.perm_cons_erase hx).symm

theorem repair_chromosome_perm (customers : List Nat) (s : RandS) :
    (repair_chromosome customers s).1.Perm customers :=
  pySampleGo_perm customers.length customers s rfl

theorem is_valid_of_perm (customers : List Nat) (c : List Nat)
    (h : c.Perm customers) : is_valid_chromosome c customers = true := by
  simp [is_valid_chromosome, h.length_eq, List.toFinset_eq_of_perm _ _ h]

theorem perm_of_is_valid (customers : List Nat) (c : List Nat)
    (hnd : customers.Nodup) (h : is_valid_chromosome c customers = true) :
    c.Perm customers := by
  rw [is_valid_chromosome, Bool.and_eq_true, decide_eq_true_eq,
    decide_eq_true_eq] at h
  obtain ⟨hlen, hfin⟩ := h
  have hcard : c.toFinset.card = c.length := by
    rw [hfin, List.toFinset_card_of_nodup hnd, hlen]
  have hdedup : c.dedup.length = c.length := by
    rw [← List.card_toFinset]; exact hcard
  have hcnd : c.Nodup :=
    List.dedup_eq_self.mp ((List.dedup_sublist c).eq_of_length hdedup)
  exact List.perm_of_nodup_nodup_toFinset_eq hcnd hnd hfin

theorem insertByCost_perm (p : List Nat × ℚ) :
    ∀ l : List (List Nat × ℚ), (insertByCost p l).Perm (p :: l) := by
  intro l
  induction l with
  | nil => exact List.Perm.refl _
  | cons q rest ih =>
    rw [insertByCost]
    by_cases h : p.2 < q.2
    · rw [if_pos h]
    · rw [if_neg h]
      exact (List.Perm.cons q ih).trans (List.Perm.swap p q rest)

theorem sortByCost_perm : ∀ l : List (List Nat × ℚ), (sortByCost l).Perm l := by
  intro l
  induction l with
  | nil => exact List.Perm.refl _
  | cons p rest ih =>
    rw [sortByCost]
    exact (insertByCost_perm p (sortByCost rest)).trans (List.Perm.cons p ih)

theorem checkedChild_perm (customers : List Nat) (hnd : customers.Nodup)
    (child : List Nat) (s : RandS) :
    (checkedChild customers child s).1.Perm customers := by
  rw [checkedChild]
  by_cases hv : is_valid_chromosome child customers
  · rw [if_pos hv]
    exact perm_of_is_valid customers child hnd hv
  · rw [if_neg hv]
    exact repair_chromosome_perm customers s

set_option maxHeartbeats 4000000 in
theorem reproduce_inv (sel : SelOp) (cross : CrossOp) (mu : MutOp)
    (customers : List Nat) (pop : List (List Nat)) (fits : List ℚ)
    (px pm : ℚ) (hnd : customers.Nodup) :
    ∀ (n : Nat) (acc : List (List Nat)) (s : RandS),
    (∀ c ∈ acc, c.Perm customers) →
    ∀ c ∈ (reproduce sel cross mu customers pop fits px pm n acc s).1,
      c.Perm customers := by
  intro n
  induction n with
  | zero => intro acc s hacc c hc; exact hacc c hc
  | succ n ih =>
    intro acc s hacc c hc
    rw [reproduce] at hc
    dsimp only at hc
    refine ih _ _ ?_ c hc
    intro d hd
    rcases List.mem_append.mp hd with hd' | hd'
    · exact hacc d hd'
    · rw [List.mem_singleton.mp hd']
      exact checkedChild_perm customers hnd _ _

theorem initPop_perm (customers : List Nat) : ∀ (n : Nat) (s : RandS),
    ∀ c ∈ (initPop customers n s).1, c.Perm customers := by
  intro n
  induction n with
  | zero => intro s c hc; simp [initPop] at hc
  | succ n ih =>
    intro s c hc
    rw [initPop] at hc
    rcases List.mem_cons.mp hc with rfl | hc'
    · exact repair_chromosome_perm customers s
    · exact ih _ c hc'

set_option maxHeartbeats 1000000 in
theorem gaStep_pop_inv (inst : Instance) (dist : Nat → Nat → ℚ) (sel : SelOp)
    (cross : CrossOp) (mu : MutOp) (pop_size : Nat) (px pm : ℚ)
    (hnd : inst.customers.Nodup) (st : GAState)
    (hpop : ∀ c ∈ st.population, c.Perm inst.customers) :
    ∀ c ∈ (gaStep inst dist sel cross mu pop_size px pm st).population,
      c.Perm inst.customers := by
  intro c hc
  refine reproduce_inv sel cross mu inst.customers _ _ px pm hnd _ _ _ ?_ c hc
  intro d hd
  obtain ⟨pr, hpr, rfl⟩ := List.mem_map.mp hd
  have hpr2 := List.mem_of_mem_take hpr
  have hpr3 := (sortByCost_perm _).mem_iff.mp hpr2
  exact hpop pr.1 (List.of_mem_zip hpr3).1

theorem gaRun_pop_inv (inst : Instance) (dist : Nat → Nat → ℚ) (sel : SelOp)
    (cross : CrossOp) (mu : MutOp) (pop_size : Nat) (px pm : ℚ)
    (hnd : inst.customers.Nodup) : ∀ (g : Nat) (st : GAState),
    (∀ c ∈ st.population, c.Perm inst.customers) →
    ∀ c ∈ (gaRun inst dist sel cross mu pop_size px pm g st).population,
      c.Perm inst.customers := by
  intro g
  induction g with
  | zero => intro st hpop c hc; exact hpop c hc
  | succ g ih =>
    intro st hpop c hc
    rw [gaRun] at hc
    exact ih _ (gaStep_pop_inv inst dist sel cross mu pop_size px pm hnd st hpop) c hc

/-- Claim C9, confirmed: at the start of every generation, every
chromosome in the population of genetic_algorithm is a valid permutation
of the customers - the initial population consists of random
permutations, elites are members of the previous population, and every
offspring is gated by the is_valid_chromosome check with random-repair
fallback, so no invalid chromosome is ever propagated (for arbitrary
selection, crossover and mutation operators). -/
theorem C9_population_valid_permutations (inst : Instance)
    (dist : Nat → Nat → ℚ) (sel : SelOp) (cross : CrossOp) (mu : MutOp)
    (pop_size : Nat) (px pm : ℚ) (s : RandS)
    (hnd : inst.customers.Nodup) (g : Nat) :
    ∀ chrom ∈ (gaRun inst dist sel cross mu pop_size px pm g
      { population := (initPop inst.customers pop_size s).1,
        best_cost := none, best_chrom := none, history := [],
        rand := (initPop inst.customers pop_size s).2 }).population,
      chrom.Perm inst.customers ∧
        is_valid_chromosome chrom inst.customers = true := by
  intro chrom hm
  have hperm := gaRun_pop_inv inst dist sel cross mu pop_size px pm hnd g _
    (fun c hc => initPop_perm inst.customers pop_size s c hc) chrom hm
  exact ⟨hperm, is_valid_of_perm inst.customers chrom hperm⟩

/-- Witness for C9 on a concrete one-chromosome run after one
generation. -/
theorem C9_witness :
    instA.customers.Nodup ∧
    (∀ chrom ∈ (gaRun instA distA selFirst crossKeep muKeep 1 (9/10) (1/4) 1
      { population := (initPop instA.customers 1 streamA).1,
        best_cost := none, best_chrom := none, history := [],
        rand := (initPop instA.customers 1 streamA).2 }).population,
      chrom.Perm instA.customers ∧
        is_valid_chromosome chrom instA.customers = true) :=
  ⟨by decide, C9_population_valid_permutations instA distA selFirst crossKeep
    muKeep 1 (9/10) (1/4) streamA (by decide) 1⟩

theorem fillNones_spec : ∀ (t : List (Option Nat)) (fill : List Nat),
    t.count none = fill.length →
    ∃ c, fillNones t fill = some c ∧ c.Perm (t.filterMap id ++ fill) := by
  intro t
  induction t with
  | nil =>
    intro fill h
    rw [List.eq_nil_of_length_eq_zero (show fill.length = 0 by simpa using h.symm)]
    exact ⟨[], rfl, by simp⟩
  | cons o t ih =>
    intro fill h
    cases o with
    | some v =>
      have hcnt : t.count none = fill.length := by
        rwa [List.count_cons_of_ne (by simp)] at h
      obtain ⟨c, hc, hp⟩ := ih fill hcnt
      refine ⟨v :: c, ?_, ?_⟩
      · rw [fillNones, hc]
      · simpa using List.Perm.cons v hp
    | none =>
      cases fill with
      | nil => simp [List.count_cons_self] at h
      | cons f fs =>
        have hcnt : t.count none = fs.length := by
          rw [List.count_cons_self] at h
          simpa using h
        obtain ⟨c, hc, hp⟩ := ih fs hcnt
        refine ⟨f :: c, ?_, ?_⟩
        · rw [fillNones, hc]
        · rw [show (none :: t).filterMap id = t.filterMap id from rfl]
          exact (List.Perm.cons f hp).trans List.perm_middle.symm

theorem opt_length_eq (t : List (Option Nat)) :
    t.length = (t.filterMap id).length + t.count none := by
  induction t with
  | nil => simp
  | cons o t ih =>
    cases o with
    | some v =>
      simp [List.count_cons_of_ne (show (some v : Option Nat) ≠ none by simp), ih]
      omega
    | none => simp [List.count_cons_self, ih]; omega

theorem filterMap_ite_none (P : Nat → Prop) [DecidablePred P] (f : Nat → Nat) :
    ∀ l : List Nat,
    l.filterMap (fun k => if P k then some (f k) else none) =
      (l.filter (fun k => decide (P k))).map f := by
  intro l
  induction l with
  | nil => rfl
  | cons x xs ih =>
    by_cases hp : P x
    · simp [hp, ih, List.filter_cons, List.filterMap_cons]
    · simp [hp, ih, List.filter_cons, List.filterMap_cons]

theorem sliceTemplate_filterMap (p1 : List Nat) (a b n : Nat) :
    (sliceTemplate p1 a b n).filterMap id =
      ((List.range n).filter (fun k => decide (a ≤ k ∧ k < b))).map
        (fun k => p1.getD k 0) := by
  rw [sliceTemplate, List.filterMap_map]
  exact filterMap_ite_none (fun k => a ≤ k ∧ k < b) (fun k => p1.getD k 0) _

theorem mem_some_template (p1 : List Nat) (a b n : Nat) (x : Nat) :
    some x ∈ sliceTemplate p1 a b n ↔
      x ∈ (sliceTemplate p1 a b n).filterMap id := by
  rw [List.mem_filterMap]
  constructor
  · intro h; exact ⟨some x, h, rfl⟩
  · rintro ⟨o, ho, h⟩
    cases o with
    | none => cases h
    | some y => cases h; exact ho

theorem sliceTemplate_somes_nodup (p1 : List Nat) (a b : Nat)
    (hnd : p1.Nodup) :
    ((sliceTemplate p1 a b p1.length).filterMap id).Nodup := by
  rw [sliceTemplate_filterMap]
  refine List.Nodup.map_on ?_ ((List.nodup_range p1.length).filter _)
  intro k hk k' hk' hEq
  have hkn : k < p1.length := List.mem_range.mp (List.mem_of_mem_filter hk)
  have hkn' : k' < p1.length := List.mem_range.mp (List.mem_of_mem_filter hk')
  rw [List.getD_eq_getElem _ _ hkn, List.getD_eq_getElem _ _ hkn'] at hEq
  by_contra hne
  exact (List.Nodup.getElem_inj_iff hnd).mp hEq |> hne

theorem sliceTemplate_somes_sub (p1 : List Nat) (a b : Nat) (x : Nat)
    (hx : x ∈ (sliceTemplate p1 a b p1.length).filterMap id) : x ∈ p1 := by
  rw [sliceTemplate_filterMap] at hx
  obtain ⟨k, hk, rfl⟩ := List.mem_map.mp hx
  have hkn : k < p1.length := List.mem_range.mp (List.mem_of_mem_filter hk)
  rw [List.getD_eq_getElem _ _ hkn]
  exact List.getElem_mem _

theorem sliceTemplate_length (p1 : List Nat) (a b n : Nat) :
    (sliceTemplate p1 a b n).length = n := by
  simp [sliceTemplate]

theorem orderCrossCore_perm (p1 p2 : List Nat) (a b : Nat)
    (hnd : p1.Nodup) (hperm : p2.Perm p1) :
    ∃ c, orderCrossCore p1 p2 a b = some c ∧ c.Perm p1 := by
  have hnd2 : p2.Nodup := hperm.nodup_iff.mpr hnd
  rw [orderCrossCore]
  set t := sliceTemplate p1 a b p1.length with ht
  set S := t.filterMap id with hS
  have hmemS : ∀ x, t.contains (some x) = true ↔ x ∈ S := by
    intro x
    rw [List.elem_iff]
    exact mem_some_template p1 a b p1.length x
  have hS2 : (p2.filter (fun x => t.contains (some x))).Perm S := by
    refine List.perm_of_nodup_nodup_toFinset_eq (hnd2.filter _)
      (sliceTemplate_somes_nodup p1 a b hnd) ?_
    ext x
    simp only [List.mem_toFinset, List.mem_filter]
    constructor
    · rintro ⟨_, hx2⟩; exact (hmemS x).mp hx2
    · intro hx
      exact ⟨hperm.mem_iff.mpr (sliceTemplate_somes_sub p1 a b x hx),
        (hmemS x).mpr hx⟩
  have hsplit := List.filter_append_perm (fun x => t.contains (some x)) p2
  have hcount : t.count none = (p2.filter (fun x => !t.contains (some x))).length := by
    have h1 := opt_length_eq t
    rw [← hS] at h1
    have h2 : t.length = p1.length := sliceTemplate_length p1 a b p1.length
    have h3 : (p2.filter (fun x => t.contains (some x))).length +
        (p2.filter (fun x => !t.contains (some x))).length = p2.length := by
      have := hsplit.length_eq
      simpa using this
    have h4 : (p2.filter (fun x => t.contains (some x))).length = S.length :=
      hS2.length_eq
    have h5 : p2.length = p1.length := hperm.length_eq
    omega
  obtain ⟨c, hc, hp⟩ := fillNones_spec t _ hcount
  refine ⟨c, hc, ?_⟩
  refine hp.trans ?_
  refine (List.Perm.append_right _ hS2.symm).trans ?_
  exact hsplit.trans hperm

theorem pmxSigma_lt (p1 p2 : List Nat) (hperm : p2.Perm p1) {pos : Nat}
    (h : pos < p1.length) : pmxSigma p1 p2 pos < p1.length := by
  rw [pmxSigma, ← hperm.length_eq]
  refine List.indexOf_lt_length.mpr ?_
  refine hperm.mem_iff.mpr ?_
  rw [List.getD_eq_getElem _ _ h]
  exact List.getElem_mem _

theorem p2_getD_pmxSigma (p1 p2 : List Nat) (hperm : p2.Perm p1) {pos : Nat}
    (h : pos < p1.length) :
    p2.getD (pmxSigma p1 p2 pos) 0 = p1.getD pos 0 := by
  have hmem : p1.getD pos 0 ∈ p2 := by
    refine hperm.mem_iff.mpr ?_
    rw [List.getD_eq_getElem _ _ h]
    exact List.getElem_mem _
  have hlt : List.indexOf (p1.getD pos 0) p2 < p2.length :=
    List.indexOf_lt_length.mpr hmem
  rw [pmxSigma, List.getD_eq_getElem _ _ hlt]
  exact List.getElem_indexOf hlt

theorem pmxSigma_inj (p1 p2 : List Nat) (hnd1 : p1.Nodup) (hperm : p2.Perm p1)
    {x y : Nat} (hx : x < p1.length) (hy : y < p1.length)
    (h : pmxSigma p1 p2 x = pmxSigma p1 p2 y) : x = y := by
  have h1 : p1.getD x 0 = p1.getD y 0 := by
    rw [← p2_getD_pmxSigma p1 p2 hperm hx, ← p2_getD_pmxSigma p1 p2 hperm hy, h]
  rw [List.getD_eq_getElem _ _ hx, List.getD_eq_getElem _ _ hy] at h1
  exact (List.Nodup.getElem_inj_iff hnd1).mp h1

theorem pmxTau_lt (p1 p2 : List Nat) (hperm : p2.Perm p1) {pos : Nat}
    (h : pos < p1.length) : pmxTau p1 p2 pos < p1.length := by
  rw [pmxTau]
  refine List.indexOf_lt_length.mpr ?_
  refine hperm.mem_iff.mp ?_
  rw [List.getD_eq_getElem _ _ (by rw [hperm.length_eq]; exact h)]
  exact List.getElem_mem _

theorem p1_getD_pmxTau (p1 p2 : List Nat) (hperm : p2.Perm p1) {pos : Nat}
    (h : pos < p1.length) :
    p1.getD (pmxTau p1 p2 pos) 0 = p2.getD pos 0 := by
  have hmem : p2.getD pos 0 ∈ p1 := by
    refine hperm.mem_iff.mp ?_
    rw [List.getD_eq_getElem _ _ (by rw [hperm.length_eq]; exact h)]
    exact List.getElem_mem _
  have hlt : List.indexOf (p2.getD pos 0) p1 < p1.length :=
    List.indexOf_lt_length.mpr hmem
  rw [pmxTau, List.getD_eq_getElem _ _ hlt]
  exact List.getElem_indexOf hlt

theorem pmxSigma_pmxTau (p1 p2 : List Nat) (hnd2 : p2.Nodup)
    (hperm : p2.Perm p1) {pos : Nat} (h : pos < p1.length) :
    pmxSigma p1 p2 (pmxTau p1 p2 pos) = pos := by
  rw [pmxSigma, p1_getD_pmxTau p1 p2 hperm h]
  have hp2 : pos < p2.length := by rw [hperm.length_eq]; exact h
  rw [List.getD_eq_getElem _ _ hp2]
  exact List.indexOf_getElem hnd2 pos hp2

theorem pmxTau_pmxSigma (p1 p2 : List Nat) (hnd1 : p1.Nodup)
    (hperm : p2.Perm p1) {pos : Nat} (h : pos < p1.length) :
    pmxTau p1 p2 (pmxSigma p1 p2 pos) = pos := by
  rw [pmxTau, p2_getD_pmxSigma p1 p2 hperm h, List.getD_eq_getElem _ _ h]
  exact List.indexOf_getElem hnd1 pos h

theorem iter_pmxSigma_lt (p1 p2 : List Nat) (hperm : p2.Perm p1) :
    ∀ (k : Nat) {pos : Nat}, pos < p1.length →
    (pmxSigma p1 p2)^[k] pos < p1.length := by
  intro k
  induction k with
  | zero => intro pos h; exact h
  | succ k ih =>
    intro pos h
    rw [Function.iterate_succ_apply']
    exact pmxSigma_lt p1 p2 hperm (ih h)

theorem iter_pmxTau_lt (p1 p2 : List Nat) (hperm : p2.Perm p1) :
    ∀ (k : Nat) {pos : Nat}, pos < p1.length →
    (pmxTau p1 p2)^[k] pos < p1.length := by
  intro k
  induction k with
  | zero => intro pos h; exact h
  | succ k ih =>
    intro pos h
    rw [Function.iterate_succ_apply']
    exact pmxTau_lt p1 p2 hperm (ih h)

theorem iter_pmxSigma_inj (p1 p2 : List Nat) (hnd1 : p1.Nodup)
    (hperm : p2.Perm p1) :
    ∀ (m : Nat) {x y : Nat}, x < p1.length → y < p1.length →
    (pmxSigma p1 p2)^[m] x = (pmxSigma p1 p2)^[m] y → x = y := by
  intro m
  induction m with
  | zero => intro x y _ _ h; exact h
  | succ m ih =>
    intro x y hx hy h
    rw [Function.iterate_succ_apply', Function.iterate_succ_apply'] at h
    exact ih hx hy (pmxSigma_inj p1 p2 hnd1 hperm
      (iter_pmxSigma_lt p1 p2 hperm m hx) (iter_pmxSigma_lt p1 p2 hperm m hy) h)

theorem iter_pmxTau_inj (p1 p2 : List Nat) (hnd1 : p1.Nodup) (hnd2 : p2.Nodup)
    (hperm : p2.Perm p1) :
    ∀ (m : Nat) {x y : Nat}, x < p1.length → y < p1.length →
    (pmxTau p1 p2)^[m] x = (pmxTau p1 p2)^[m] y → x = y := by
  intro m
  induction m with
  | zero => intro x y _ _ h; exact h
  | succ m ih =>
    intro x y hx hy h
    rw [Function.iterate_succ_apply', Function.iterate_succ_apply'] at h
    refine ih hx hy ?_
    have h1 := congrArg (pmxSigma p1 p2) h
    rwa [pmxSigma_pmxTau p1 p2 hnd2 hperm (iter_pmxTau_lt p1 p2 hperm m hx),
      pmxSigma_pmxTau p1 p2 hnd2 hperm (iter_pmxTau_lt p1 p2 hperm m hy)] at h1

theorem nodup_length_le_of_sub {l l' : List Nat} (hnd : l.Nodup)
    (hsub : ∀ x ∈ l, x ∈ l') : l.length ≤ l'.length := by
  have h1 : l.length = l.toFinset.card := (List.toFinset_card_of_nodup hnd).symm
  have h2 : l.toFinset ⊆ l'.toFinset := by
    intro x hx
    rw [List.mem_toFinset] at hx ⊢
    exact hsub x hx
  have h3 : l'.toFinset.card ≤ l'.length := by
    rw [List.card_toFinset]
    exact (List.dedup_sublist l').length_le
  have h4 := Finset.card_le_card h2
  omega

theorem exists_dup_map {f : Nat → Nat} {l tgt : List Nat} (hnd : l.Nodup)
    (hsub : ∀ x ∈ l, f x ∈ tgt) (hlen : tgt.length < l.length) :
    ∃ x ∈ l, ∃ y ∈ l, x ≠ y ∧ f x = f y := by
  by_contra hcon
  push_neg at hcon
  have hmap : (l.map f).Nodup := by
    refine List.Nodup.map_on ?_ hnd
    intro x hx y hy hEq
    by_contra hne
    exact hcon x hx y hy hne hEq
  have := nodup_length_le_of_sub hmap (by
    intro x hx
    obtain ⟨y, hy, rfl⟩ := List.mem_map.mp hx
    exact hsub y hy)
  simp only [List.length_map] at this
  omega

theorem pmx_cycle_contra (p1 p2 : List Nat) (hperm : p2.Perm p1)
    {a b i d : Nat} (hi : a ≤ i ∧ i < b) (hin : i < p1.length)
    (htrig : PmxTrig p1 p2 a b i) (hd : 1 ≤ d)
    (hcyc : (pmxSigma p1 p2)^[d] i = i)
    (hslice : ∀ m, m < d → a ≤ (pmxSigma p1 p2)^[m] i ∧
      (pmxSigma p1 p2)^[m] i < b) : False := by
  have hpred : (pmxSigma p1 p2) ((pmxSigma p1 p2)^[d - 1] i) = i := by
    rw [← Function.iterate_succ_apply' (pmxSigma p1 p2) (d - 1) i]
    rw [show (d - 1).succ = d by omega]
    exact hcyc
  have hpredlt : (pmxSigma p1 p2)^[d - 1] i < p1.length :=
    iter_pmxSigma_lt p1 p2 hperm (d - 1) hin
  have hpredsl := hslice (d - 1) (by omega)
  refine htrig ⟨(pmxSigma p1 p2)^[d - 1] i, hpredsl.1, hpredsl.2, ?_⟩
  rw [← p2_getD_pmxSigma p1 p2 hperm hpredlt, hpred]

theorem exit_exists (p1 p2 : List Nat) (hnd1 : p1.Nodup) (hperm : p2.Perm p1)
    {a b i : Nat} (hbn : b ≤ p1.length) (hi : a ≤ i ∧ i < b)
    (htrig : PmxTrig p1 p2 a b i) : ∃ e, IsExit p1 p2 a b i e := by
  have hin : i < p1.length := lt_of_lt_of_le hi.2 hbn
  have key : ∀ m1 m2, m1 < m2 → m2 ≤ b - a →
      (∀ m, m ≤ b - a → a ≤ (pmxSigma p1 p2)^[m] i ∧ (pmxSigma p1 p2)^[m] i < b) →
      (pmxSigma p1 p2)^[m1] i = (pmxSigma p1 p2)^[m2] i → False := by
    intro m1 m2 hlt hm2 hall hEq
    have hd : (pmxSigma p1 p2)^[m2 - m1] i = i := by
      refine iter_pmxSigma_inj p1 p2 hnd1 hperm m1
        (iter_pmxSigma_lt p1 p2 hperm _ hin) hin ?_
      rw [← Function.iterate_add_apply, show m1 + (m2 - m1) = m2 by omega]
      exact hEq.symm
    refine pmx_cycle_contra p1 p2 hperm hi hin htrig (by omega) hd ?_
    intro m hm
    exact hall m (by omega)
  have hstep1 : ∃ m, m ≤ b - a ∧
      ¬(a ≤ (pmxSigma p1 p2)^[m] i ∧ (pmxSigma p1 p2)^[m] i < b) := by
    by_contra hcon
    have hall : ∀ m, m ≤ b - a →
        a ≤ (pmxSigma p1 p2)^[m] i ∧ (pmxSigma p1 p2)^[m] i < b := by
      intro m hm
      by_contra hbad
      exact hcon ⟨m, hm, hbad⟩
    obtain ⟨m1, hm1, m2, hm2, hne, hEq⟩ := @exists_dup_map
      (fun m => (pmxSigma p1 p2)^[m] i)
      (List.range (b - a + 1)) (List.range' a (b - a))
      (List.nodup_range _)
      (by intro m hm
          rw [List.mem_range] at hm
          have := hall m (by omega)
          refine List.mem_range'_1.mpr ?_
          show a ≤ (pmxSigma p1 p2)^[m] i ∧ (pmxSigma p1 p2)^[m] i < a + (b - a)
          omega)
      (by simp)
    rw [List.mem_range] at hm1 hm2
    rcases Nat.lt_or_ge m1 m2 with hlt | hge
    · exact key m1 m2 hlt (by omega) hall hEq
    · exact key m2 m1 (by omega) (by omega) hall hEq.symm
  obtain ⟨m0, hm0b, hm0⟩ := hstep1
  have hex : ∃ m, ¬(a ≤ (pmxSigma p1 p2)^[m] i ∧ (pmxSigma p1 p2)^[m] i < b) :=
    ⟨m0, hm0⟩
  have hk := Nat.find_spec hex
  have hk1 : 1 ≤ Nat.find hex := by
    rcases Nat.eq_zero_or_pos (Nat.find hex) with h0 | h
    · rw [h0] at hk
      exact absurd (show a ≤ (pmxSigma p1 p2)^[0] i ∧ (pmxSigma p1 p2)^[0] i < b
        from hi) hk
    · exact h
  have hkb : Nat.find hex ≤ b - a :=
    le_trans (Nat.find_min' hex hm0) hm0b
  refine ⟨(pmxSigma p1 p2)^[Nat.find hex] i, Nat.find hex, hk1, hkb, rfl, hk, ?_⟩
  intro m hm1 hm2
  have := Nat.find_min hex hm2
  exact Decidable.not_not.mp this

theorem exit_unique (p1 p2 : List Nat) {a b i e e' : Nat}
    (h1 : IsExit p1 p2 a b i e) (h2 : IsExit p1 p2 a b i e') : e = e' := by
  obtain ⟨k, hk1, hkb, hke, hkn, hkmin⟩ := h1
  obtain ⟨k', hk1', hkb', hke', hkn', hkmin'⟩ := h2
  rcases Nat.lt_trichotomy k k' with h | h | h
  · exact absurd (hke ▸ hkmin' k hk1 h) hkn
  · rw [← hke, ← hke', h]
  · exact absurd (hke' ▸ hkmin k' hk1' h) hkn'
theorem exit_inj_le (p1 p2 : List Nat) (hnd1 : p1.Nodup) (hperm : p2.Perm p1)
    {a b j j' e k k' : Nat} (hbn : b ≤ p1.length)
    (hj : a ≤ j ∧ j < b) (hj' : a ≤ j' ∧ j' < b)
    (htj : PmxTrig p1 p2 a b j)
    (hk1 : 1 ≤ k)
    (hke : (pmxSigma p1 p2)^[k] j = e)
    (hke' : (pmxSigma p1 p2)^[k'] j' = e)
    (hmin' : ∀ m, 1 ≤ m → m < k' → a ≤ (pmxSigma p1 p2)^[m] j' ∧
      (pmxSigma p1 p2)^[m] j' < b)
    (hkk : k ≤ k') : j = j' := by
  have hjn : j < p1.length := lt_of_lt_of_le hj.2 hbn
  have hjn' : j' < p1.length := lt_of_lt_of_le hj'.2 hbn
  have hiter : (pmxSigma p1 p2)^[k] j =
      (pmxSigma p1 p2)^[k] ((pmxSigma p1 p2)^[k' - k] j') := by
    rw [hke, ← hke', ← Function.iterate_add_apply,
      show k + (k' - k) = k' by omega]
  have heq : j = (pmxSigma p1 p2)^[k' - k] j' :=
    iter_pmxSigma_inj p1 p2 hnd1 hperm k hjn
      (iter_pmxSigma_lt p1 p2 hperm (k' - k) hjn') hiter
  rcases Nat.eq_zero_or_pos (k' - k) with h0 | hd
  · rw [h0] at heq
    simpa using heq
  · exfalso
    have hpred : (pmxSigma p1 p2) ((pmxSigma p1 p2)^[k' - k - 1] j') = j := by
      rw [← Function.iterate_succ_apply' (pmxSigma p1 p2) (k' - k - 1) j',
        show (k' - k - 1).succ = k' - k by omega]
      exact heq.symm
    have hpredlt : (pmxSigma p1 p2)^[k' - k - 1] j' < p1.length :=
      iter_pmxSigma_lt p1 p2 hperm (k' - k - 1) hjn'
    have hpredsl : a ≤ (pmxSigma p1 p2)^[k' - k - 1] j' ∧
        (pmxSigma p1 p2)^[k' - k - 1] j' < b := by
      rcases Nat.eq_zero_or_pos (k' - k - 1) with h1 | h1
      · rw [h1]
        simpa using hj'
      · exact hmin' (k' - k - 1) h1 (by omega)
    refine htj ⟨(pmxSigma p1 p2)^[k' - k - 1] j', hpredsl.1, hpredsl.2, ?_⟩
    rw [← p2_getD_pmxSigma p1 p2 hperm hpredlt, hpred]

theorem exit_inj (p1 p2 : List Nat) (hnd1 : p1.Nodup) (hperm : p2.Perm p1)
    {a b j j' e : Nat} (hbn : b ≤ p1.length)
    (hj : a ≤ j ∧ j < b) (hj' : a ≤ j' ∧ j' < b)
    (htj : PmxTrig p1 p2 a b j) (htj' : PmxTrig p1 p2 a b j')
    (h1 : IsExit p1 p2 a b j e) (h2 : IsExit p1 p2 a b j' e) : j = j' := by
  obtain ⟨k, hk1, _, hke, _, hkmin⟩ := h1
  obtain ⟨k', hk1', _, hke', _, hkmin'⟩ := h2
  rcases le_total k k' with h | h
  · exact exit_inj_le p1 p2 hnd1 hperm hbn hj hj' htj hk1 hke hke' hkmin' h
  · exact (exit_inj_le p1 p2 hnd1 hperm hbn hj' hj htj' hk1' hke' hke hkmin h).symm

theorem iter_sigma_tau (p1 p2 : List Nat) (hnd2 : p2.Nodup) (hperm : p2.Perm p1) :
    ∀ (m : Nat) {x : Nat}, x < p1.length →
    (pmxSigma p1 p2)^[m] ((pmxTau p1 p2)^[m] x) = x := by
  intro m
  induction m with
  | zero => intro x _; rfl
  | succ m ih =>
    intro x hx
    rw [Function.iterate_succ_apply (pmxSigma p1 p2) m,
      Function.iterate_succ_apply' (pmxTau p1 p2) m x,
      pmxSigma_pmxTau p1 p2 hnd2 hperm (iter_pmxTau_lt p1 p2 hperm m hx)]
    exact ih hx

theorem bad_covered (p1 p2 : List Nat) (hnd1 : p1.Nodup) (hperm : p2.Perm p1)
    {a b j : Nat} (hbn : b ≤ p1.length) (hjn : j < p1.length)
    (hout : ¬(a ≤ j ∧ j < b)) (hsv : SliceVal p1 a b (p2.getD j 0)) :
    ∃ i, a ≤ i ∧ i < b ∧ PmxTrig p1 p2 a b i ∧ IsExit p1 p2 a b i j := by
  have hnd2 : p2.Nodup := hperm.nodup_iff.mpr hnd1
  obtain ⟨m, ham, hmb, hval⟩ := hsv
  have hmn : m < p1.length := lt_of_lt_of_le hmb hbn
  have htau1 : pmxTau p1 p2 j = m := by
    rw [pmxTau, ← hval, List.getD_eq_getElem _ _ hmn]
    exact List.indexOf_getElem hnd1 m hmn
  have hdistinct : ∀ m1 m2, m1 < m2 →
      (∀ mm, 1 ≤ mm → mm ≤ m2 → a ≤ (pmxTau p1 p2)^[mm] j ∧
        (pmxTau p1 p2)^[mm] j < b) →
      (pmxTau p1 p2)^[m1] j = (pmxTau p1 p2)^[m2] j → False := by
    intro m1 m2 hlt hall hEq
    have hback : j = (pmxTau p1 p2)^[m2 - m1] j := by
      refine iter_pmxTau_inj p1 p2 hnd1 hnd2 hperm m1 hjn
        (iter_pmxTau_lt p1 p2 hperm _ hjn) ?_
      rw [← Function.iterate_add_apply, show m1 + (m2 - m1) = m2 by omega]
      exact hEq
    have hin := hall (m2 - m1) (by omega) (by omega)
    rw [← hback] at hin
    exact hout hin
  have hexq : ∃ r, ¬(a ≤ (pmxTau p1 p2)^[r + 1] j ∧
      (pmxTau p1 p2)^[r + 1] j < b) := by
    by_contra hcon
    have hall : ∀ mm, 1 ≤ mm → a ≤ (pmxTau p1 p2)^[mm] j ∧
        (pmxTau p1 p2)^[mm] j < b := by
      intro mm h1
      have h2 := not_exists.mp hcon (mm - 1)
      rw [show mm - 1 + 1 = mm by omega] at h2
      exact Decidable.not_not.mp h2
    obtain ⟨m1, hm1, m2, hm2, hne, hEq⟩ := @exists_dup_map
      (fun mm => (pmxTau p1 p2)^[mm] j)
      (List.range' 1 (b - a + 1)) (List.range' a (b - a))
      (List.nodup_range' _ _)
      (by intro mm hmm
          rw [List.mem_range'_1] at hmm
          have := hall mm (by omega)
          refine List.mem_range'_1.mpr ?_
          show a ≤ (pmxTau p1 p2)^[mm] j ∧ (pmxTau p1 p2)^[mm] j < a + (b - a)
          omega)
      (by simp)
    rw [List.mem_range'_1] at hm1 hm2
    rcases Nat.lt_or_ge m1 m2 with hlt | hge
    · exact hdistinct m1 m2 hlt (fun mm h1 h2 => hall mm h1) hEq
    · exact hdistinct m2 m1 (by omega) (fun mm h1 h2 => hall mm h1) hEq.symm
  have hR := Nat.find_spec hexq
  have hR1 : 1 ≤ Nat.find hexq := by
    rcases Nat.eq_zero_or_pos (Nat.find hexq) with h0 | h
    · exfalso
      rw [h0] at hR
      refine hR ?_
      rw [show (0 + 1) = 1 from rfl, Function.iterate_one, htau1]
      exact ⟨ham, hmb⟩
    · exact h
  have hslice : ∀ mm, 1 ≤ mm → mm ≤ Nat.find hexq →
      a ≤ (pmxTau p1 p2)^[mm] j ∧ (pmxTau p1 p2)^[mm] j < b := by
    intro mm h1 h2
    have h3 := Nat.find_min hexq (show mm - 1 < Nat.find hexq by omega)
    rw [show mm - 1 + 1 = mm by omega] at h3
    exact Decidable.not_not.mp h3
  have hRba : Nat.find hexq ≤ b - a := by
    have hnd : ((List.range' 1 (Nat.find hexq)).map
        (fun mm => (pmxTau p1 p2)^[mm] j)).Nodup := by
      refine List.Nodup.map_on ?_ (List.nodup_range' _ _)
      intro x hx y hy hEq
      rw [List.mem_range'_1] at hx hy
      by_contra hne
      rcases Nat.lt_or_ge x y with hlt | hge
      · exact hdistinct x y hlt (fun mm h1 h2 => hslice mm h1 (by omega)) hEq
      · exact hdistinct y x (by omega)
          (fun mm h1 h2 => hslice mm h1 (by omega)) hEq.symm
    have hsub : ∀ x ∈ (List.range' 1 (Nat.find hexq)).map
        (fun mm => (pmxTau p1 p2)^[mm] j), x ∈ List.range' a (b - a) := by
      intro x hx
      obtain ⟨mm, hmm, rfl⟩ := List.mem_map.mp hx
      rw [List.mem_range'_1] at hmm
      have := hslice mm hmm.1 (by omega)
      refine List.mem_range'_1.mpr ?_
      show a ≤ (pmxTau p1 p2)^[mm] j ∧ (pmxTau p1 p2)^[mm] j < a + (b - a)
      omega
    have := nodup_length_le_of_sub hnd hsub
    simpa using this
  refine ⟨(pmxTau p1 p2)^[Nat.find hexq] j,
    (hslice _ hR1 le_rfl).1, (hslice _ hR1 le_rfl).2, ?_,
    Nat.find hexq, hR1, hRba, ?_, hout, ?_⟩
  · rintro ⟨mm, hamm, hmmb, hvmm⟩
    have hmmn : mm < p1.length := lt_of_lt_of_le hmmb hbn
    have hstep : pmxTau p1 p2 ((pmxTau p1 p2)^[Nat.find hexq] j) = mm := by
      rw [pmxTau, ← hvmm, List.getD_eq_getElem _ _ hmmn]
      exact List.indexOf_getElem hnd1 mm hmmn
    have hnext : (pmxTau p1 p2)^[Nat.find hexq + 1] j = mm := by
      rw [Function.iterate_succ_apply']
      exact hstep
    exact hR (hnext ▸ ⟨hamm, hmmb⟩)
  · exact iter_sigma_tau p1 p2 hnd2 hperm _ hjn
  · intro mm h1 h2
    have hmix : (pmxSigma p1 p2)^[mm] ((pmxTau p1 p2)^[Nat.find hexq] j) =
        (pmxTau p1 p2)^[Nat.find hexq - mm] j := by
      have hsplit : (pmxTau p1 p2)^[Nat.find hexq] j =
          (pmxTau p1 p2)^[mm] ((pmxTau p1 p2)^[Nat.find hexq - mm] j) := by
        rw [← Function.iterate_add_apply,
          show mm + (Nat.find hexq - mm) = Nat.find hexq by omega]
      rw [hsplit, iter_sigma_tau p1 p2 hnd2 hperm mm
        (iter_pmxTau_lt p1 p2 hperm _ hjn)]
    rw [hmix]
    exact hslice _ (by omega) (by omega)

theorem pmxChain_spec (p1 p2 : List Nat) (val : Nat) :
    ∀ (k : Nat), 1 ≤ k → ∀ (start fuel : Nat) (c1 : List (Option Nat)),
    k ≤ fuel →
    (∀ m, 1 ≤ m → m < k → c1.getD ((pmxSigma p1 p2)^[m] start) none ≠ none) →
    c1.getD ((pmxSigma p1 p2)^[k] start) none = none →
    pmxChain p1 p2 val start c1 fuel =
      some (c1.set ((pmxSigma p1 p2)^[k] start) (some val)) := by
  intro k
  induction k with
  | zero => intro h; exact absurd h (by omega)
  | succ k ih =>
    intro _ start fuel c1 hfuel hmid hend
    obtain ⟨f, rfl⟩ : ∃ f, fuel = f + 1 := ⟨fuel - 1, by omega⟩
    show (if c1.getD (pmxSigma p1 p2 start) none = none
        then some (c1.set (pmxSigma p1 p2 start) (some val))
        else pmxChain p1 p2 val (pmxSigma p1 p2 start) c1 f) =
      some (c1.set ((pmxSigma p1 p2)^[k + 1] start) (some val))
    rcases Nat.eq_zero_or_pos k with hk0 | hk1
    · subst hk0
      have he : c1.getD (pmxSigma p1 p2 start) none = none := by
        have h := hend
        rwa [show (0 + 1) = 1 from rfl, Function.iterate_one] at h
      rw [if_pos he, show (0 + 1) = 1 from rfl, Function.iterate_one]
    · have hne : c1.getD (pmxSigma p1 p2 start) none ≠ none := by
        have h := hmid 1 le_rfl (by omega)
        rwa [Function.iterate_one] at h
      rw [if_neg hne, Function.iterate_succ_apply]
      refine ih hk1 (pmxSigma p1 p2 start) f c1 (by omega) ?_ ?_
      · intro m hm1 hm2
        rw [← Function.iterate_succ_apply]
        exact hmid (m + 1) (by omega) (by omega)
      · rw [← Function.iterate_succ_apply]
        exact hend

theorem sliceTemplate_getD (p1 : List Nat) (a b size k : Nat) (hk : k < size) :
    (sliceTemplate p1 a b size).getD k none =
      if a ≤ k ∧ k < b then some (p1.getD k 0) else none := by
  rw [sliceTemplate, List.getD_eq_getElem _ _ (by simpa using hk)]
  simp

theorem pmxInv_init (p1 p2 : List Nat) {a b : Nat} (hbn : b ≤ p1.length) :
    PmxInv p1 p2 a b a (sliceTemplate p1 a b p1.length) := by
  refine ⟨sliceTemplate_length p1 a b p1.length, ?_, ?_, ?_⟩
  · intro k hak hkb
    rw [sliceTemplate_getD p1 a b p1.length k (lt_of_lt_of_le hkb hbn),
      if_pos ⟨hak, hkb⟩]
  · intro k hk hout
    rw [sliceTemplate_getD p1 a b p1.length k hk, if_neg hout]
    constructor
    · intro h
      exact absurd rfl h
    · rintro ⟨i, hai, hit, _, _⟩
      omega
  · intro k hk hout i hai hit
    omega

theorem getD_inj_of_nodup {l : List Nat} (hnd : l.Nodup) {x y : Nat}
    (hx : x < l.length) (hy : y < l.length) (h : l.getD x 0 = l.getD y 0) :
    x = y := by
  rw [List.getD_eq_getElem _ _ hx, List.getD_eq_getElem _ _ hy] at h
  have h1 := List.indexOf_getElem hnd x hx
  have h2 := List.indexOf_getElem hnd y hy
  rw [← h1, ← h2, h]

theorem pmx_contains_iff (p1 p2 : List Nat) (hnd1 : p1.Nodup)
    (hperm : p2.Perm p1) {a b t : Nat} {c1 : List (Option Nat)}
    (hat : a ≤ t) (htb : t < b) (hbn : b ≤ p1.length)
    (hinv : PmxInv p1 p2 a b t c1) :
    c1.contains (some (p2.getD t 0)) = true ↔ ¬PmxTrig p1 p2 a b t := by
  have hnd2 : p2.Nodup := hperm.nodup_iff.mpr hnd1
  have htn : t < p1.length := lt_of_lt_of_le htb hbn
  have htn2 : t < p2.length := by rw [hperm.length_eq]; exact htn
  obtain ⟨hlen, hsl, hocc, hval⟩ := hinv
  constructor
  · intro hc
    have hmem : some (p2.getD t 0) ∈ c1 := by
      rw [← List.elem_iff]
      exact hc
    obtain ⟨q, hq, hqv⟩ := List.mem_iff_getElem.mp hmem
    have hqd : c1.getD q none = some (p2.getD t 0) := by
      rw [List.getD_eq_getElem _ _ hq]
      exact hqv
    rw [hlen] at hq
    by_cases hqsl : a ≤ q ∧ q < b
    · intro htr
      refine htr ⟨q, hqsl.1, hqsl.2, ?_⟩
      have := hsl q hqsl.1 hqsl.2
      rw [this] at hqd
      exact Option.some.inj hqd
    · exfalso
      have hne : c1.getD q none ≠ none := by
        rw [hqd]
        simp
      obtain ⟨i, hai, hit, htr, hexi⟩ := (hocc q hq hqsl).mp hne
      have hvq := hval q hq hqsl i hai hit htr hexi
      rw [hvq] at hqd
      have : i = t := getD_inj_of_nodup hnd2
        (by rw [hperm.length_eq]; exact lt_of_lt_of_le (lt_of_lt_of_le hit htb.le) hbn) htn2
        (Option.some.inj hqd)
      omega
  · intro hntr
    have hsv : SliceVal p1 a b (p2.getD t 0) := not_not.mp hntr
    obtain ⟨q, haq, hqb, hqv⟩ := hsv
    have hq : q < c1.length := by
      rw [hlen]
      exact lt_of_lt_of_le hqb hbn
    have : c1.getD q none = some (p2.getD t 0) := by
      rw [hsl q haq hqb, hqv]
    rw [List.getD_eq_getElem _ _ hq] at this
    show c1.elem (some (p2.getD t 0)) = true
    rw [List.elem_iff, ← this]
    exact List.getElem_mem hq
  
theorem pmxInv_skip (p1 p2 : List Nat) {a b t : Nat} {c1 : List (Option Nat)}
    (hnotrig : ¬PmxTrig p1 p2 a b t)
    (hinv : PmxInv p1 p2 a b t c1) : PmxInv p1 p2 a b (t + 1) c1 := by
  obtain ⟨h1, h2, h3, h4⟩ := hinv
  refine ⟨h1, h2, ?_, ?_⟩
  · intro k hk hout
    rw [h3 k hk hout]
    constructor
    · rintro ⟨i, hai, hit, htr, hex⟩
      exact ⟨i, hai, by omega, htr, hex⟩
    · rintro ⟨i, hai, hit, htr, hex⟩
      refine ⟨i, hai, ?_, htr, hex⟩
      rcases Nat.lt_or_ge i t with h | h
      · exact h
      · exfalso
        have hEq : i = t := by omega
        subst hEq
        exact hnotrig htr
  · intro k hk hout i hai hit htr hex
    rcases Nat.lt_or_ge i t with h | h
    · exact h4 k hk hout i hai h htr hex
    · exfalso
      have hEq : i = t := by omega
      subst hEq
      exact hnotrig htr

theorem pmxInv_extend (p1 p2 : List Nat) (hnd1 : p1.Nodup)
    (hperm : p2.Perm p1) {a b t : Nat} (hat : a ≤ t) (htb : t < b)
    (hbn : b ≤ p1.length) (htrig : PmxTrig p1 p2 a b t)
    {c1 : List (Option Nat)} (hinv : PmxInv p1 p2 a b t c1)
    (fuel : Nat) (hfuel : b - a ≤ fuel) :
    ∃ c2, pmxChain p1 p2 (p2.getD t 0) t c1 fuel = some c2 ∧
      PmxInv p1 p2 a b (t + 1) c2 := by
  obtain ⟨hlen, hsl, hocc, hval⟩ := hinv
  obtain ⟨e, k, hk1, hkb, hke, heout, hkmin⟩ :=
    exit_exists p1 p2 hnd1 hperm hbn ⟨hat, htb⟩ htrig
  have hext : IsExit p1 p2 a b t e := ⟨k, hk1, hkb, hke, heout, hkmin⟩
  have htn : t < p1.length := lt_of_lt_of_le htb hbn
  have hen : e < p1.length := by
    rw [← hke]
    exact iter_pmxSigma_lt p1 p2 hperm k htn
  have hnone : c1.getD e none = none := by
    by_contra hne
    obtain ⟨i, hai, hit, htr, hexi⟩ := (hocc e hen heout).mp hne
    have hEq : i = t := exit_inj p1 p2 hnd1 hperm hbn
      ⟨hai, lt_trans hit htb⟩ ⟨hat, htb⟩ htr htrig hexi hext
    omega
  have hmid : ∀ m, 1 ≤ m → m < k →
      c1.getD ((pmxSigma p1 p2)^[m] t) none ≠ none := by
    intro m hm1 hm2
    have hs := hkmin m hm1 hm2
    rw [hsl _ hs.1 hs.2]
    simp
  have hend : c1.getD ((pmxSigma p1 p2)^[k] t) none = none := by
    rw [hke]
    exact hnone
  have hchain := pmxChain_spec p1 p2 (p2.getD t 0) k hk1 t fuel c1
    (le_trans hkb hfuel) hmid hend
  rw [hke] at hchain
  refine ⟨c1.set e (some (p2.getD t 0)), hchain, ?_, ?_, ?_, ?_⟩
  · rw [List.length_set]
    exact hlen
  · intro q haq hqb
    rw [getD_set_ne _ _ _ _ _ (fun h => heout (by rw [h]; exact ⟨haq, hqb⟩))]
    exact hsl q haq hqb
  · intro q hq hqout
    by_cases hqe : q = e
    · subst hqe
      constructor
      · intro _
        exact ⟨t, hat, by omega, htrig, hext⟩
      · intro _
        rw [List.getD_eq_getElem _ _ (by rw [List.length_set, hlen]; exact hq)]
        simp [List.getElem_set]
    · rw [getD_set_ne _ _ _ _ _ (fun h => hqe h.symm)]
      rw [hocc q hq hqout]
      constructor
      · rintro ⟨i, hai, hit, htr, hexi⟩
        exact ⟨i, hai, by omega, htr, hexi⟩
      · rintro ⟨i, hai, hit, htr, hexi⟩
        refine ⟨i, hai, ?_, htr, hexi⟩
        rcases Nat.lt_or_ge i t with h | h
        · exact h
        · exfalso
          have hEq : i = t := by omega
          subst hEq
          exact hqe (exit_unique p1 p2 hexi hext)
  · intro q hq hqout i hai hit htr hexi
    by_cases hit' : i = t
    · subst hit'
      have hqe : q = e := exit_unique p1 p2 hexi hext
      subst hqe
      rw [List.getD_eq_getElem _ _ (by rw [List.length_set, hlen]; exact hq)]
      simp [List.getElem_set]
    · have hilt : i < t := by omega
      by_cases hqe : q = e
      · exfalso
        subst hqe
        exact ((hocc q hq hqout).mpr ⟨i, hai, hilt, htr, hexi⟩) hnone
      · rw [getD_set_ne _ _ _ _ _ (fun h => hqe h.symm)]
        exact hval q hq hqout i hai hilt htr hexi

theorem pmxMapLoop_spec (p1 p2 : List Nat) (hnd1 : p1.Nodup)
    (hperm : p2.Perm p1) {a b : Nat} (hbn : b ≤ p1.length)
    (fuel : Nat) (hfuel : b - a ≤ fuel) :
    ∀ (cnt t : Nat), a ≤ t → t + cnt = b →
    ∀ c1, PmxInv p1 p2 a b t c1 →
    ∃ c2, pmxMapLoop p1 p2 fuel (List.range' t cnt) c1 = some c2 ∧
      PmxInv p1 p2 a b b c2 := by
  intro cnt
  induction cnt with
  | zero =>
    intro t hat htb c1 hinv
    refine ⟨c1, rfl, ?_⟩
    rw [show t = b by omega] at hinv
    exact hinv
  | succ cnt ih =>
    intro t hat htb c1 hinv
    have htlt : t < b := by omega
    rw [List.range'_succ]
    by_cases htr : PmxTrig p1 p2 a b t
    · obtain ⟨c2, hchain, hinv2⟩ :=
        pmxInv_extend p1 p2 hnd1 hperm hat htlt hbn htr hinv fuel hfuel
      obtain ⟨c3, hrun, hinv3⟩ := ih (t + 1) (by omega) (by omega) c2 hinv2
      refine ⟨c3, ?_, hinv3⟩
      rw [pmxMapLoop,
        if_neg (fun h =>
          ((pmx_contains_iff p1 p2 hnd1 hperm hat htlt hbn hinv).mp h) htr),
        hchain]
      exact hrun
    · have hc : c1.contains (some (p2.getD t 0)) = true :=
        (pmx_contains_iff p1 p2 hnd1 hperm hat htlt hbn hinv).mpr htr
      have hinv2 := pmxInv_skip p1 p2 htr hinv
      obtain ⟨c3, hrun, hinv3⟩ := ih (t + 1) (by omega) (by omega) c1 hinv2
      refine ⟨c3, ?_, hinv3⟩
      rw [pmxMapLoop, if_pos hc]
      exact hrun

theorem pmxCrossCore_perm (p1 p2 : List Nat) (hnd1 : p1.Nodup)
    (hperm : p2.Perm p1) {a b : Nat} (hab : a < b) (hbn : b ≤ p1.length) :
    ∃ c, pmxCrossCore p1 p2 a b = some c ∧ c.Perm p1 := by
  have hnd2 : p2.Nodup := hperm.nodup_iff.mpr hnd1
  have hlen2 : p2.length = p1.length := hperm.length_eq
  obtain ⟨c1', hrun, hinv⟩ := pmxMapLoop_spec p1 p2 hnd1 hperm hbn
    p1.length (by omega) (b - a) a le_rfl (by omega)
    (sliceTemplate p1 a b p1.length) (pmxInv_init p1 p2 hbn)
  obtain ⟨hlen, hsl, hocc, hval⟩ := hinv
  refine ⟨c1'.zipWith (fun o pv => o.getD pv) p2, ?_, ?_⟩
  · show (match pmxMapLoop p1 p2 p1.length (List.range' a (b - a))
        (sliceTemplate p1 a b p1.length) with
      | none => none
      | some c => some (c.zipWith (fun o pv => o.getD pv) p2)) =
      some (c1'.zipWith (fun o pv => o.getD pv) p2)
    rw [hrun]
  · have hclen : (c1'.zipWith (fun o pv => o.getD pv) p2).length = p1.length := by
      rw [List.length_zipWith, hlen, hlen2]
      exact min_self _
    have hcv : ∀ j, j < p1.length →
        (c1'.zipWith (fun o pv => o.getD pv) p2).getD j 0 =
          (c1'.getD j none).getD (p2.getD j 0) := by
      intro j hj
      rw [List.getD_eq_getElem _ _ (by rw [hclen]; exact hj),
        List.getElem_zipWith,
        List.getD_eq_getElem c1' _ (by rw [hlen]; exact hj),
        List.getD_eq_getElem p2 _ (by rw [hlen2]; exact hj)]
    have hchar : ∀ j, j < p1.length →
        (a ≤ j ∧ j < b ∧
          (c1'.zipWith (fun o pv => o.getD pv) p2).getD j 0 = p1.getD j 0) ∨
        (¬(a ≤ j ∧ j < b) ∧ ∃ i, a ≤ i ∧ i < b ∧ PmxTrig p1 p2 a b i ∧
          IsExit p1 p2 a b i j ∧
          (c1'.zipWith (fun o pv => o.getD pv) p2).getD j 0 = p2.getD i 0) ∨
        (¬(a ≤ j ∧ j < b) ∧ ¬ SliceVal p1 a b (p2.getD j 0) ∧
          (c1'.zipWith (fun o pv => o.getD pv) p2).getD j 0 = p2.getD j 0) := by
      intro j hj
      by_cases hslj : a ≤ j ∧ j < b
      · left
        refine ⟨hslj.1, hslj.2, ?_⟩
        rw [hcv j hj, hsl j hslj.1 hslj.2]
        rfl
      · rcases hcn : c1'.getD j none with _ | v
        · right; right
          refine ⟨hslj, ?_, ?_⟩
          · intro hsv
            obtain ⟨i, hai, hib, htr, hexi⟩ :=
              bad_covered p1 p2 hnd1 hperm hbn hj hslj hsv
            exact ((hocc j hj hslj).mpr ⟨i, hai, hib, htr, hexi⟩) hcn
          · rw [hcv j hj, hcn]
            rfl
        · right; left
          have hne : c1'.getD j none ≠ none := by
            rw [hcn]
            simp
          obtain ⟨i, hai, hib, htr, hexi⟩ := (hocc j hj hslj).mp hne
          have hvj := hval j hj hslj i hai hib htr hexi
          refine ⟨hslj, i, hai, hib, htr, hexi, ?_⟩
          rw [hcv j hj, hvj]
          rfl
    have hinj : ∀ j j', j < p1.length → j' < p1.length →
        (c1'.zipWith (fun o pv => o.getD pv) p2).getD j 0 =
          (c1'.zipWith (fun o pv => o.getD pv) p2).getD j' 0 → j = j' := by
      intro j j' hj hj' hEq
      rcases hchar j hj with ⟨h1, h2, hv⟩ | ⟨hout, i, hai, hib, htr, hexi, hv⟩ |
        ⟨hout, hnsv, hv⟩ <;>
        rcases hchar j' hj' with ⟨h1', h2', hv'⟩ |
          ⟨hout', i', hai', hib', htr', hexi', hv'⟩ | ⟨hout', hnsv', hv'⟩
      · exact getD_inj_of_nodup hnd1 hj hj' (by rw [← hv, hEq, hv'])
      · exact absurd ⟨j, h1, h2, by rw [hv.symm.trans (hEq.trans hv')]⟩ htr'
      · exact absurd ⟨j, h1, h2, hv.symm.trans (hEq.trans hv')⟩ hnsv'
      · exact absurd ⟨j', h1', h2', by
          rw [hv'.symm.trans (hEq.symm.trans hv)]⟩ htr
      · have hii : i = i' := getD_inj_of_nodup hnd2
          (by rw [hlen2]; omega) (by rw [hlen2]; omega)
          (hv.symm.trans (hEq.trans hv'))
        subst hii
        exact exit_unique p1 p2 hexi hexi'
      · have hij : i = j' := getD_inj_of_nodup hnd2
          (by rw [hlen2]; omega) (by rw [hlen2]; exact hj')
          (hv.symm.trans (hEq.trans hv'))
        omega
      · exact absurd ⟨j', h1', h2', hv'.symm.trans (hEq.symm.trans hv)⟩ hnsv
      · have hij : j = i' := getD_inj_of_nodup hnd2
          (by rw [hlen2]; exact hj) (by rw [hlen2]; omega)
          (hv.symm.trans (hEq.trans hv'))
        omega
      · exact getD_inj_of_nodup hnd2 (by rw [hlen2]; exact hj)
          (by rw [hlen2]; exact hj') (hv.symm.trans (hEq.trans hv'))
    have hnodup : (c1'.zipWith (fun o pv => o.getD pv) p2).Nodup := by
      rw [List.nodup_iff_injective_get]
      rintro ⟨x, hx⟩ ⟨y, hy⟩ h
      have hx' : x < p1.length := by rw [← hclen]; exact hx
      have hy' : y < p1.length := by rw [← hclen]; exact hy
      refine Fin.ext ?_
      refine hinj x y hx' hy' ?_
      rw [List.getD_eq_getElem _ _ hx, List.getD_eq_getElem _ _ hy]
      exact h
    have hsub : ∀ x ∈ c1'.zipWith (fun o pv => o.getD pv) p2, x ∈ p1 := by
      intro x hx
      obtain ⟨j, hjl, hjv⟩ := List.mem_iff_getElem.mp hx
      have hj : j < p1.length := by rw [← hclen]; exact hjl
      have hxv : x = (c1'.zipWith (fun o pv => o.getD pv) p2).getD j 0 := by
        rw [List.getD_eq_getElem _ _ hjl, hjv]
      rcases hchar j hj with ⟨h1, h2, hv⟩ | ⟨hout, i, hai, hib, htr, hexi, hv⟩ |
        ⟨hout, hnsv, hv⟩
      · rw [hxv, hv, List.getD_eq_getElem _ _ hj]
        exact List.getElem_mem hj
      · rw [hxv, hv]
        have hi2 : i < p2.length := by rw [hlen2]; omega
        rw [List.getD_eq_getElem _ _ hi2]
        exact hperm.mem_iff.mp (List.getElem_mem hi2)
      · rw [hxv, hv]
        have hj2 : j < p2.length := by rw [hlen2]; exact hj
        rw [List.getD_eq_getElem _ _ hj2]
        exact hperm.mem_iff.mp (List.getElem_mem hj2)
    have hsp := List.subperm_of_subset hnodup hsub
    exact hsp.perm_of_length_le (by rw [hclen])

theorem pySampleTwoIdx_some (n : Nat) (s : RandS) (h : 2 ≤ n) :
    ∃ i j s', pySampleTwoIdx n s = (some (i, j), s') := by
  rw [pySampleTwoIdx, if_neg (by omega)]
  exact ⟨_, _, _, rfl⟩

/-- Counterexample to C7 as stated: on a single-customer chromosome -
a valid permutation of its one-element customer set - both crossover
operators fail (none models Python's ValueError raised by
random.sample(range(1), 2)), so the claim's for-all-valid-permutations,
without-raising reading is false. -/
theorem C7_counterexample_singleton_crossover :
    (order_crossover [5] [5] []).1 = none ∧
      (pmx_crossover [5] [5] []).1 = none := by
  exact ⟨rfl, rfl⟩

/-- C7, corrected to chromosomes of length at least 2 (the draw
random.sample(range(size), 2) requires two distinct indices): for all
valid permutations p1 and p2 of the same customer set, both
order_crossover and pmx_crossover succeed and return a valid
permutation of that same set, for every random source. -/
theorem C7_corrected_crossover_closure (p1 p2 : List Nat) (s : RandS)
    (hnd : p1.Nodup) (hperm : p2.Perm p1) (hlen : 2 ≤ p1.length) :
    (∃ c, (order_crossover p1 p2 s).1 = some c ∧ c.Perm p1 ∧
      is_valid_chromosome c p1 = true) ∧
    (∃ c, (pmx_crossover p1 p2 s).1 = some c ∧ c.Perm p1 ∧
      is_valid_chromosome c p1 = true) := by
  obtain ⟨i, j, s', hdraw⟩ := pySampleTwoIdx_some p1.length s hlen
  obtain ⟨hi, hj, hij⟩ := pySampleTwoIdx_spec p1.length s i j s' hdraw
  have hab : min i j < max i j := by omega
  have hbn : max i j ≤ p1.length := by omega
  constructor
  · obtain ⟨c, hc, hcp⟩ := orderCrossCore_perm p1 p2 (min i j) (max i j)
      hnd hperm
    refine ⟨c, ?_, hcp, is_valid_of_perm p1 c hcp⟩
    rw [order_crossover, hdraw]
    show orderCrossCore p1 p2 (min i j) (max i j) = some c
    exact hc
  · obtain ⟨c, hc, hcp⟩ := pmxCrossCore_perm p1 p2 hnd hperm hab hbn
    refine ⟨c, ?_, hcp, is_valid_of_perm p1 c hcp⟩
    rw [pmx_crossover, hdraw]
    show pmxCrossCore p1 p2 (min i j) (max i j) = some c
    exact hc

/-- Witness for the corrected C7 at a concrete three-customer pair of
parents. -/
theorem C7_corrected_witness :
    ([1, 2, 3] : List Nat).Nodup ∧ ([3, 1, 2] : List Nat).Perm [1, 2, 3] ∧
    2 ≤ ([1, 2, 3] : List Nat).length ∧
    ((∃ c, (order_crossover [1, 2, 3] [3, 1, 2] [0, 0]).1 = some c ∧
        c.Perm [1, 2, 3] ∧ is_valid_chromosome c [1, 2, 3] = true) ∧
      (∃ c, (pmx_crossover [1, 2, 3] [3, 1, 2] [0, 0]).1 = some c ∧
        c.Perm [1, 2, 3] ∧ is_valid_chromosome c [1, 2, 3] = true)) :=
  ⟨by decide, by decide, by decide,
    C7_corrected_crossover_closure [1, 2, 3] [3, 1, 2] [0, 0]
      (by decide) (by decide) (by decide)⟩
